import Mathlib

/-!
Verification of the git-spice stack-view core: the stack resolver, view-model
projector and optimistic reorder overlay of `src/stackView/state.ts`, and the
keyed-list reconciliation engine of `media/stackView.js`.

The TypeScript/JavaScript source is shallowly embedded: each exported or
module-private function becomes a Lean definition of the same name; `while`
loops and the recursive DFS become fuel-indexed recursions (the fuel bound
baked into the wrappers is provably sufficient, see the stabilization lemmas);
JavaScript `Map` lookup built with `new Map(xs.map(x => [x.key, x]))` becomes
"last record with that key"; `undefined`-able fields become `Option`.
-/

namespace GitSpice

/-- A link to an adjacent branch (`down` parent or `ups` child), carrying the
restack-needed flag, as in the `GitSpiceBranch` schema described by the spec
(§3 BranchRecord: `down: { name, needsRestack } | absent`,
`ups: [{ name, needsRestack }]`). -/
structure BranchLink where
  name : String
  needsRestack : Bool
deriving DecidableEq, Repr

/-- One commit record (`{ sha, subject }`). -/
structure Commit where
  sha : String
  subject : String
deriving DecidableEq, Repr

/-- An associated change/PR reference (`{ id, url?, status? }`). -/
structure Change where
  id : String
  url : Option String
  status : Option String
deriving DecidableEq, Repr

/-- One input branch record (spec §3 BranchRecord; `type BranchRecord =
GitSpiceBranch` in `stackView/types.ts`). -/
structure BranchRecord where
  name : String
  current : Bool
  down : Option BranchLink
  ups : List BranchLink
  change : Option Change
  commits : Option (List Commit)
deriving DecidableEq, Repr

/-- `BranchReorderInfo` from `utils/gitSpice.ts`:
`{ oldIndex: number; newIndex: number; branchName: string }`. -/
structure BranchReorderInfo where
  oldIndex : Nat
  newIndex : Nat
  branchName : String
deriving DecidableEq, Repr

/-- Commit view-model (`{ sha, shortSha, subject }`). -/
structure BranchCommitViewModel where
  sha : String
  shortSha : String
  subject : String
deriving DecidableEq, Repr

/-- Change view-model (`{ id, url?, status? }`). -/
structure BranchChangeViewModel where
  id : String
  url : Option String
  status : Option String
deriving DecidableEq, Repr

/-- Branch view-model (spec §3 BranchViewModel). -/
structure BranchViewModel where
  name : String
  current : Bool
  restack : Bool
  change : Option BranchChangeViewModel
  commits : Option (List BranchCommitViewModel)
deriving DecidableEq, Repr

/-- The display state produced by `buildDisplayState`. -/
structure DisplayState where
  branches : List BranchViewModel
  error : Option String
  pendingReorder : Option BranchReorderInfo
deriving DecidableEq, Repr

/-- `new Map(branches.map((branch) => [branch.name, branch]))` followed by
`map.get(name)`: the last record with the given name wins (later `Map.set`
calls overwrite earlier ones). -/
def branchLookup (branches : List BranchRecord) (name : String) : Option BranchRecord :=
  (branches.filter (fun b => b.name = name)).getLast?

/-- `branchMap.has(name)`. -/
def branchHas (branches : List BranchRecord) (name : String) : Bool :=
  (branchLookup branches name).isSome

/-- The first `while` loop of `computeFocusSet` (state.ts lines 34-44): walk
`down` links from the current record, stopping on a name already collected, a
missing `down`, or a dangling link.  `fuel` bounds the number of iterations;
every iteration but the last inserts a fresh name, so any fuel of at least
`branches.length + 2` is never exhausted (see `downWalkF_stable`). -/
def downWalkF (lookup : String → Option BranchRecord) :
    Nat → List String → Option BranchRecord → List String
  | 0, set, _ => set
  | _ + 1, set, none => set
  | fuel + 1, set, some node =>
    if node.name ∈ set then set
    else
      let set' := set ++ [node.name]
      match node.down with
      | none => set'
      | some link => downWalkF lookup fuel set' (lookup link.name)

/-- One `for (const link of branch.ups)` body of the BFS loop of
`computeFocusSet` (state.ts lines 54-63): look the child up, skip dangling
links, and enqueue children not already in the set. -/
def bfsStep (lookup : String → Option BranchRecord)
    (st : List String × List String) (link : BranchLink) : List String × List String :=
  match lookup link.name with
  | none => st
  | some child =>
    if child.name ∈ st.1 then st
    else (st.1 ++ [child.name], st.2 ++ [child.name])

/-- The second `while` loop of `computeFocusSet` (state.ts lines 46-64):
breadth-first traversal of `ups` links starting from the current branch name.
`fuel` bounds the number of dequeue steps (see `bfsF_stable`). -/
def bfsF (lookup : String → Option BranchRecord) :
    Nat → List String → List String → List String
  | 0, set, _ => set
  | _ + 1, set, [] => set
  | fuel + 1, set, name :: queue =>
    match lookup name with
    | none => bfsF lookup fuel set queue
    | some branch =>
      let st := branch.ups.foldl (bfsStep lookup) (set, queue)
      bfsF lookup fuel st.1 st.2

/-- `computeFocusSet` (state.ts lines 30-67) with explicit fuel for the two
`while` loops.  The returned list is the JS `Set` in insertion order. -/
def computeFocusSetF (fuel : Nat) (branches : List BranchRecord)
    (current : BranchRecord) : List String :=
  let lookup := branchLookup branches
  let set := downWalkF lookup fuel [] (some current)
  bfsF lookup fuel set [current.name]

/-- `computeFocusSet` with its (sufficient) canonical fuel. -/
def computeFocusSet (branches : List BranchRecord) (current : BranchRecord) : List String :=
  computeFocusSetF (branches.length + 2) branches current

/-- Stable insertion of a record into a name-sorted list: the inserted record
goes after every record whose name is not greater, mirroring the stable
`Array.prototype.sort((a, b) => a.name.localeCompare(b.name))` with the
lexicographic string order standing in for the locale order. -/
def insertByName (b : BranchRecord) : List BranchRecord → List BranchRecord
  | [] => [b]
  | c :: rest => if b.name < c.name then b :: c :: rest else c :: insertByName b rest

/-- Stable sort by branch name (`.sort((a, b) => a.name.localeCompare(b.name))`). -/
def sortByName (l : List BranchRecord) : List BranchRecord :=
  l.foldr insertByName []

/-- The root test of `orderStack` (state.ts line 74):
`!branch.down || !branchMap.has(branch.down.name)`. -/
def isRoot (lookup : String → Option BranchRecord) (b : BranchRecord) : Bool :=
  match b.down with
  | none => true
  | some link => (lookup link.name).isNone

/-- The `traverse` closure of `orderStack` (state.ts lines 83-98): a DFS that
skips visited names, appends the branch to the output, and recurses into the
branch's `ups` children that resolve inside `branches`, in name order.  `fuel`
bounds the recursion depth (see `traverseF_stable`). -/
def traverseF (stackBranches : List BranchRecord) (lookup : String → Option BranchRecord) :
    Nat → List BranchRecord × List String → BranchRecord → List BranchRecord × List String
  | 0, st, _ => st
  | fuel + 1, (ordered, visited), branch =>
    if branch.name ∈ visited then (ordered, visited)
    else
      let ordered' := ordered ++ [branch]
      let visited' := visited ++ [branch.name]
      let children := sortByName
        (((branch.ups.filterMap (fun link => lookup link.name)).filter
          (fun child => child ∈ stackBranches)))
      children.foldl (traverseF stackBranches lookup fuel) (ordered', visited')

/-- `orderStack` (state.ts lines 69-101) with explicit DFS fuel: sort the
roots by name, fall back to the unsorted list when no roots exist, and DFS
from each queue entry. -/
def orderStackF (fuel : Nat) (stackBranches : List BranchRecord)
    (lookup : String → Option BranchRecord) : List BranchRecord :=
  let roots := sortByName (stackBranches.filter (isRoot lookup))
  let queue := if roots.length > 0 then roots else stackBranches
  (queue.foldl (traverseF stackBranches lookup fuel) ([], [])).1

/-- `orderStack` with its canonical fuel. -/
def orderStack (stackBranches : List BranchRecord)
    (lookup : String → Option BranchRecord) : List BranchRecord :=
  orderStackF (stackBranches.length + 2) stackBranches lookup

/-- The stack resolver (spec §4.1 `resolve`): lines 8-16 of
`buildDisplayState` in state.ts — find the current record, compute the focus
set, resolve names through the map dropping dangling ones, and order the
result.  `fuel` feeds both loops of `computeFocusSet` and the DFS. -/
def resolveF (fuel : Nat) (records : List BranchRecord) : List BranchRecord :=
  let lookup := branchLookup records
  match records.find? (fun b => b.current) with
  | none => []
  | some current =>
    let stackBranches := (computeFocusSetF fuel records current).filterMap lookup
    orderStackF fuel stackBranches lookup

/-- The stack resolver with its canonical fuel, `records.length + 2`, which
the stabilization lemmas show is never exhausted. -/
def resolve (records : List BranchRecord) : List BranchRecord :=
  resolveF (records.length + 2) records

/-- `applyPendingReorder` (state.ts lines 103-150). -/
def applyPendingReorder (branches : List BranchRecord)
    (pendingReorder : BranchReorderInfo) : List BranchRecord :=
  match branches.findIdx? (fun b => b.name = pendingReorder.branchName) with
  | none => branches
  | some branchIndex =>
    match branches[branchIndex]? with
    | none => branches
    | some movedBranch =>
      let reordered := branches.eraseIdx branchIndex
      let actualNewIndex : Int := (reordered.length : Int) - (pendingReorder.newIndex : Int)
      let clampedIndex : Nat := (max 0 (min actualNewIndex (reordered.length : Int))).toNat
      List.insertIdx clampedIndex movedBranch reordered

/-- `toChangeViewModel` (state.ts lines 168-174). -/
def toChangeViewModel (change : Change) : BranchChangeViewModel :=
  { id := change.id, url := change.url, status := change.status }

/-- `createBranchViewModel` (state.ts lines 144-166): flatten the restack
flags, keep the change reference, and project commits (present only when the
input commit list exists and is non-empty) with an 8-character short SHA. -/
def createBranchViewModel (branch : BranchRecord) : BranchViewModel :=
  let restack := (match branch.down with
    | some link => link.needsRestack
    | none => false) || branch.ups.any (fun link => link.needsRestack)
  { name := branch.name
    current := branch.current
    restack := restack
    change := branch.change.map toChangeViewModel
    commits :=
      match branch.commits with
      | some cs =>
        if cs.length > 0 then
          some (cs.map (fun c => { sha := c.sha, shortSha := c.sha.take 8, subject := c.subject }))
        else none
      | none => none }

/-- `buildDisplayState` (state.ts lines 4-29). -/
def buildDisplayState (branches : List BranchRecord) (error : Option String)
    (pendingReorder : Option BranchReorderInfo) : DisplayState :=
  let ordered := resolve branches
  let ordered' :=
    match pendingReorder with
    | some p => applyPendingReorder ordered p
    | none => ordered
  { branches := ordered'.map createBranchViewModel
    error := error
    pendingReorder := pendingReorder }

/-! ### General list lemmas used by the overlay proofs -/

theorem getElem?_some_mem {α : Type} {x : α} :
    ∀ {l : List α} {i : Nat}, l[i]? = some x → x ∈ l
  | a :: l, 0, h => by simp at h; simp [h]
  | a :: l, i + 1, h => by
    simp only [List.getElem?_cons_succ] at h
    exact List.mem_cons_of_mem a (getElem?_some_mem h)

theorem getElem?_some_lt {α : Type} {x : α} :
    ∀ {l : List α} {i : Nat}, l[i]? = some x → i < l.length
  | a :: l, 0, _ => Nat.succ_pos _
  | a :: l, i + 1, h => by
    simp only [List.getElem?_cons_succ] at h
    exact Nat.succ_lt_succ (getElem?_some_lt h)

theorem findIdx?_some_getElem {α : Type} {p : α → Bool} :
    ∀ {l : List α} {i : Nat}, l.findIdx? p = some i → ∃ x, l[i]? = some x ∧ p x = true := by
  intro l
  induction l with
  | nil => intro i h; simp at h
  | cons a l ih =>
    intro i h
    rw [List.findIdx?_cons] at h
    by_cases hp : p a
    · simp [hp] at h
      exact ⟨a, by simp [← h], hp⟩
    · rw [if_neg (by simp [hp]), List.findIdx?_succ, Option.map_eq_some'] at h
      obtain ⟨j, hj, hij⟩ := h
      obtain ⟨x, hx, hpx⟩ := ih hj
      exact ⟨x, by simp [← hij, hx], hpx⟩

theorem findIdx?_insertIdx_self {α : Type} {p : α → Bool} {x : α} (hx : p x = true) :
    ∀ (j : Nat) (m : List α), j ≤ m.length → (∀ y ∈ m, p y = false) →
      (List.insertIdx j x m).findIdx? p = some j := by
  intro j
  induction j with
  | zero => intro m _ _; simp [List.insertIdx_zero, List.findIdx?_cons, hx]
  | succ j ih =>
    intro m hj hm
    match m with
    | [] => simp at hj
    | c :: rest =>
      rw [List.insertIdx_succ_cons, List.findIdx?_cons, hm c (by simp)]
      simp only [Bool.false_eq_true, if_false]
      rw [List.findIdx?_succ, ih rest (by simpa using hj) (fun y hy => hm y (by simp [hy]))]
      rfl

theorem getElem?_insertIdx_self {α : Type} (x : α) (j : Nat) (m : List α) (hj : j ≤ m.length) :
    (List.insertIdx j x m)[j]? = some x := by
  have hlen : j < (List.insertIdx j x m).length := by
    rw [List.length_insertIdx j m hj]; omega
  rw [List.getElem?_eq_getElem hlen, List.getElem_insertIdx_self m x j hj]

theorem insertIdx_eraseIdx_getElem {α : Type} {x : α} :
    ∀ (l : List α) (i : Nat), l[i]? = some x → List.insertIdx i x (l.eraseIdx i) = l
  | a :: l, 0, h => by simp at h; simp [h, List.insertIdx_zero]
  | a :: l, i + 1, h => by
    simp only [List.getElem?_cons_succ] at h
    rw [List.eraseIdx_cons_succ, List.insertIdx_succ_cons, insertIdx_eraseIdx_getElem l i h]

theorem insertIdx_perm {α : Type} (x : α) :
    ∀ (j : Nat) (m : List α), j ≤ m.length → (List.insertIdx j x m).Perm (x :: m) := by
  intro j
  induction j with
  | zero => intro m _; simp [List.insertIdx_zero]
  | succ j ih =>
    intro m hj
    match m with
    | [] => simp at hj
    | c :: rest =>
      rw [List.insertIdx_succ_cons]
      exact ((ih rest (by simpa using hj)).cons c).trans (List.Perm.swap x c rest)

theorem perm_cons_eraseIdx_getElem {α : Type} {x : α} :
    ∀ (l : List α) (i : Nat), l[i]? = some x → l.Perm (x :: l.eraseIdx i)
  | a :: l, 0, h => by simp at h; simp [h]
  | a :: l, i + 1, h => by
    simp only [List.getElem?_cons_succ] at h
    rw [List.eraseIdx_cons_succ]
    exact ((perm_cons_eraseIdx_getElem l i h).cons a).trans (List.Perm.swap x a _)

theorem eraseIdx_map_nodup_ne {α β : Type} (f : α → β) {x : α} :
    ∀ (l : List α) (i : Nat), (l.map f).Nodup → l[i]? = some x →
      ∀ y ∈ l.eraseIdx i, f y ≠ f x
  | a :: l, 0, hnd, h => by
    rw [List.map_cons, List.nodup_cons] at hnd
    simp at h
    subst h
    simp only [List.eraseIdx_cons_zero]
    intro y hy hcontra
    apply hnd.1
    rw [← hcontra]
    exact List.mem_map_of_mem f hy
  | a :: l, i + 1, hnd, h => by
    rw [List.map_cons, List.nodup_cons] at hnd
    simp only [List.getElem?_cons_succ] at h
    simp only [List.eraseIdx_cons_succ]
    intro y hy
    rcases List.mem_cons.mp hy with rfl | hy'
    · intro hcontra
      apply hnd.1
      rw [hcontra]
      exact List.mem_map_of_mem f (getElem?_some_mem h)
    · exact eraseIdx_map_nodup_ne f l i hnd.2 h y hy'

theorem clamp_toNat (L n : Nat) :
    (max 0 (min ((L : Int) - (n : Int)) (L : Int))).toNat = L - n := by
  omega

/-- Unfolding `applyPendingReorder` when the branch is found at index `i`:
the clamped insert position is `length_after_removal - newIndex` in truncated
natural subtraction (truncation is the lower clamp; the upper clamp is
automatic). -/
theorem applyPendingReorder_found {l : List BranchRecord} {p : BranchReorderInfo} {i : Nat}
    {moved : BranchRecord}
    (hidx : l.findIdx? (fun b => b.name = p.branchName) = some i)
    (hget : l[i]? = some moved) :
    applyPendingReorder l p =
      List.insertIdx ((l.eraseIdx i).length - p.newIndex) moved (l.eraseIdx i) := by
  simp only [applyPendingReorder, hidx, hget, clamp_toNat]

theorem applyPendingReorder_not_found {l : List BranchRecord} {p : BranchReorderInfo}
    (h : ∀ b ∈ l, b.name ≠ p.branchName) : applyPendingReorder l p = l := by
  have hfind : l.findIdx? (fun b => b.name = p.branchName) = none := by
    rw [List.findIdx?_eq_none_iff]
    intro x hx
    simpa using h x hx
  simp only [applyPendingReorder, hfind]

/-! ### Claim theorems about the optimistic reorder overlay -/

/-- C2: `applyPendingReorder(ordered, pending)` returns `ordered` unchanged
whenever `pending.branchName` names no entry of `ordered`; otherwise it
removes the (first) named entry and reinserts it at index
`clamp(length_after_removal - pending.newIndex, 0, length_after_removal)`
(rendered in truncated natural subtraction, which realizes both clamps) in
the bottom-first array. -/
theorem applyPendingReorder_formula (l : List BranchRecord) (p : BranchReorderInfo) :
    ((∀ b ∈ l, b.name ≠ p.branchName) → applyPendingReorder l p = l) ∧
    (∀ i moved, l.findIdx? (fun b => b.name = p.branchName) = some i → l[i]? = some moved →
      applyPendingReorder l p =
        List.insertIdx ((l.eraseIdx i).length - p.newIndex) moved (l.eraseIdx i)) :=
  ⟨applyPendingReorder_not_found,
   fun _ _ hidx hget => applyPendingReorder_found hidx hget⟩

/-- representative branch records used by the closed witness statements -/
def sampleA : BranchRecord :=
  { name := "alpha", current := true, down := none, ups := [], change := none, commits := none }

def sampleB : BranchRecord :=
  { name := "beta", current := false, down := none, ups := [], change := none, commits := none }

/-- Witness for C2 at a concrete two-element list. -/
theorem applyPendingReorder_formula_witness :
    applyPendingReorder [sampleA, sampleB] ⟨0, 0, "gamma"⟩ = [sampleA, sampleB] ∧
    applyPendingReorder [sampleA, sampleB] ⟨1, 1, "alpha"⟩ =
      List.insertIdx ((([sampleA, sampleB] : List BranchRecord).eraseIdx 0).length - 1) sampleA
        (([sampleA, sampleB] : List BranchRecord).eraseIdx 0) := by
  constructor
  · exact (applyPendingReorder_formula [sampleA, sampleB] ⟨0, 0, "gamma"⟩).1 (by decide)
  · exact (applyPendingReorder_formula [sampleA, sampleB] ⟨1, 1, "alpha"⟩).2 0 sampleA
      (by decide) (by decide)

/-- C10: whenever the pending branch name is present in the list, the overlay
returns a permutation of its input — same length, same multiset of records —
for every non-negative `newIndex`, including out-of-range ones. -/
theorem applyPendingReorder_perm (l : List BranchRecord) (p : BranchReorderInfo)
    (h : ∃ b ∈ l, b.name = p.branchName) :
    (applyPendingReorder l p).Perm l ∧ (applyPendingReorder l p).length = l.length := by
  have hne : l.findIdx? (fun b => b.name = p.branchName) ≠ none := by
    intro hnone
    rw [List.findIdx?_eq_none_iff] at hnone
    obtain ⟨b, hb, hname⟩ := h
    have := hnone b hb
    simp [hname] at this
  obtain ⟨i, hidx⟩ := Option.ne_none_iff_exists'.mp hne
  obtain ⟨moved, hget, _⟩ := findIdx?_some_getElem hidx
  rw [applyPendingReorder_found hidx hget]
  have hperm : (List.insertIdx ((l.eraseIdx i).length - p.newIndex) moved (l.eraseIdx i)).Perm l := by
    refine (insertIdx_perm moved _ _ (Nat.sub_le _ _)).trans ?_
    exact (perm_cons_eraseIdx_getElem l i hget).symm
  exact ⟨hperm, hperm.length_eq⟩

/-- Witness for C10 at a concrete input. -/
theorem applyPendingReorder_perm_witness :
    (applyPendingReorder [sampleA, sampleB] ⟨0, 5, "beta"⟩).Perm [sampleA, sampleB] ∧
    (applyPendingReorder [sampleA, sampleB] ⟨0, 5, "beta"⟩).length =
      ([sampleA, sampleB] : List BranchRecord).length :=
  applyPendingReorder_perm [sampleA, sampleB] ⟨0, 5, "beta"⟩ ⟨sampleB, by decide, by decide⟩

/-- C5: for a list with unique names whose moved branch sits at array index
`i` — hence at reversed-display index `oldIndex = length - 1 - i` — a pending
move with `newIndex = oldIndex` is a no-op, and a move `(oldIndex, newIndex)`
followed by the inverse move `(newIndex, oldIndex)` restores the original
order. -/
theorem applyPendingReorder_roundtrip (l : List BranchRecord) (nm : String) (i newIdx : Nat)
    (hnodup : (l.map (fun b => b.name)).Nodup)
    (hidx : l.findIdx? (fun b => b.name = nm) = some i) :
    applyPendingReorder l ⟨l.length - 1 - i, l.length - 1 - i, nm⟩ = l ∧
    applyPendingReorder (applyPendingReorder l ⟨l.length - 1 - i, newIdx, nm⟩)
      ⟨newIdx, l.length - 1 - i, nm⟩ = l := by
  obtain ⟨moved, hget, hpmoved⟩ := findIdx?_some_getElem hidx
  have hi : i < l.length := getElem?_some_lt hget
  have hrl : (l.eraseIdx i).length = l.length - 1 := by
    rw [List.length_eraseIdx]
    simp [hi]
  have hname : moved.name = nm := by simpa using hpmoved
  constructor
  · rw [applyPendingReorder_found hidx hget]
    have hpos : (l.eraseIdx i).length - (l.length - 1 - i) = i := by omega
    rw [hpos, insertIdx_eraseIdx_getElem l i hget]
  · rw [applyPendingReorder_found hidx hget]
    set rest := l.eraseIdx i with hrest
    set p1 := rest.length - newIdx with hp1
    have hp1le : p1 ≤ rest.length := Nat.sub_le _ _
    have hrestne : ∀ y ∈ rest, (decide (y.name = nm) : Bool) = false := by
      intro y hy
      have := eraseIdx_map_nodup_ne (fun b => b.name) l i hnodup hget y hy
      simp only [hname] at this
      simpa using this
    have hfind2 : (List.insertIdx p1 moved rest).findIdx? (fun b => b.name = nm) = some p1 :=
      findIdx?_insertIdx_self (by simpa using hname) p1 rest hp1le hrestne
    have hget2 : (List.insertIdx p1 moved rest)[p1]? = some moved :=
      getElem?_insertIdx_self moved p1 rest hp1le
    rw [applyPendingReorder_found hfind2 hget2]
    rw [List.eraseIdx_insertIdx p1 rest]
    have hpos : rest.length - (l.length - 1 - i) = i := by omega
    rw [hpos, hrest]
    exact insertIdx_eraseIdx_getElem l i hget

/-- Witness for C5 at a concrete two-element list. -/
theorem applyPendingReorder_roundtrip_witness :
    applyPendingReorder [sampleA, sampleB] ⟨1, 1, "alpha"⟩ = [sampleA, sampleB] ∧
    applyPendingReorder (applyPendingReorder [sampleA, sampleB] ⟨1, 0, "alpha"⟩)
      ⟨0, 1, "alpha"⟩ = [sampleA, sampleB] :=
  applyPendingReorder_roundtrip [sampleA, sampleB] "alpha" 0 0 (by decide) (by decide)

/-! ### Claim theorems about the projector and the resolver edge cases -/

/-- C7: the projected view-model has `restack = true` iff the record's
`down.needsRestack` is true or some `ups` entry has `needsRestack` true, and
every projected commit's `shortSha` is the first 8 characters of its `sha`. -/
theorem createBranchViewModel_spec (b : BranchRecord) :
    ((createBranchViewModel b).restack = true ↔
      ((∃ link, b.down = some link ∧ link.needsRestack = true) ∨
        ∃ link ∈ b.ups, link.needsRestack = true)) ∧
    (∀ cs, (createBranchViewModel b).commits = some cs →
      ∀ c ∈ cs, c.shortSha = c.sha.take 8) := by
  constructor
  · simp only [createBranchViewModel, Bool.or_eq_true, List.any_eq_true]
    cases hd : b.down <;> simp
  · intro cs hcs c hc
    simp only [createBranchViewModel] at hcs
    cases hb : b.commits with
    | none => rw [hb] at hcs; simp at hcs
    | some cs0 =>
      rw [hb] at hcs
      by_cases hlen : cs0.length > 0
      · simp only [hlen, if_true, Option.some_inj] at hcs
        subst hcs
        obtain ⟨c0, _, hc0⟩ := List.mem_map.mp hc
        simp [← hc0]
      · simp [hlen] at hcs

/-- Witness for C7 at a concrete record with a restack-needing `down` link and
one commit. -/
theorem createBranchViewModel_spec_witness :
    ((createBranchViewModel
        { name := "feature", current := true, down := some ⟨"main", true⟩, ups := [],
          change := none,
          commits := some [⟨"abcd1234ef", "Add x"⟩] }).restack = true ↔
      ((∃ link, (some (⟨"main", true⟩ : BranchLink)) = some link ∧ link.needsRestack = true) ∨
        ∃ link ∈ ([] : List BranchLink), link.needsRestack = true)) ∧
    (∀ cs, (createBranchViewModel
        { name := "feature", current := true, down := some ⟨"main", true⟩, ups := [],
          change := none,
          commits := some [⟨"abcd1234ef", "Add x"⟩] }).commits = some cs →
      ∀ c ∈ cs, c.shortSha = c.sha.take 8) :=
  createBranchViewModel_spec
    { name := "feature", current := true, down := some ⟨"main", true⟩, ups := [],
      change := none, commits := some [⟨"abcd1234ef", "Add x"⟩] }

/-- C8: when no record is marked current, `buildDisplayState` produces an
empty branches array, for any error string and pending reorder. -/
theorem buildDisplayState_no_current (records : List BranchRecord) (err : Option String)
    (p : Option BranchReorderInfo) (h : ∀ b ∈ records, b.current = false) :
    (buildDisplayState records err p).branches = [] := by
  have hfind : records.find? (fun b => b.current) = none := by
    rw [List.find?_eq_none]
    intro x hx
    simp [h x hx]
  have hres : resolve records = [] := by
    unfold resolve resolveF
    rw [hfind]
  simp only [buildDisplayState, hres]
  cases p with
  | none => rfl
  | some pr => rfl

/-- Witness for C8: a record set with no current branch. -/
theorem buildDisplayState_no_current_witness :
    (buildDisplayState [sampleB] (some "boom") (some ⟨0, 1, "beta"⟩)).branches = [] :=
  buildDisplayState_no_current [sampleB] (some "boom") (some ⟨0, 1, "beta"⟩) (by decide)

/-! ### Step equations for the fuel-indexed loops -/

theorem downWalkF_some (lookup : String → Option BranchRecord) (fuel : Nat)
    (set : List String) (node : BranchRecord) :
    downWalkF lookup (fuel + 1) set (some node) =
      if node.name ∈ set then set
      else
        match node.down with
        | none => set ++ [node.name]
        | some link => downWalkF lookup fuel (set ++ [node.name]) (lookup link.name) := rfl

theorem downWalkF_none (lookup : String → Option BranchRecord) (fuel : Nat)
    (set : List String) : downWalkF lookup (fuel + 1) set none = set := rfl

theorem bfsF_empty (lookup : String → Option BranchRecord) (fuel : Nat)
    (set : List String) : bfsF lookup (fuel + 1) set [] = set := rfl

theorem bfsF_cons (lookup : String → Option BranchRecord) (fuel : Nat)
    (set : List String) (name : String) (queue : List String) :
    bfsF lookup (fuel + 1) set (name :: queue) =
      match lookup name with
      | none => bfsF lookup fuel set queue
      | some branch =>
        let st := branch.ups.foldl (bfsStep lookup) (set, queue)
        bfsF lookup fuel st.1 st.2 := rfl

theorem traverseF_succ (stackBranches : List BranchRecord)
    (lookup : String → Option BranchRecord) (fuel : Nat)
    (ordered : List BranchRecord) (visited : List String) (branch : BranchRecord) :
    traverseF stackBranches lookup (fuel + 1) (ordered, visited) branch =
      if branch.name ∈ visited then (ordered, visited)
      else
        (sortByName (((branch.ups.filterMap (fun link => lookup link.name)).filter
            (fun child => child ∈ stackBranches)))).foldl
          (traverseF stackBranches lookup fuel)
          (ordered ++ [branch], visited ++ [branch.name]) := rfl

/-! ### Generic fold and filter lemmas -/

theorem foldl_preserves {α β : Type} (f : β → α → β) (P : β → Prop)
    (hstep : ∀ st a, P st → P (f st a)) :
    ∀ (l : List α) (st : β), P st → P (l.foldl f st)
  | [], _, h => h
  | a :: l, st, h => foldl_preserves f P hstep l (f st a) (hstep st a h)

theorem length_filter_le_filter {α : Type} (p q : α → Bool)
    (himp : ∀ x, q x = true → p x = true) :
    ∀ l : List α, (l.filter q).length ≤ (l.filter p).length := by
  intro l
  induction l with
  | nil => simp
  | cons b l ih =>
    by_cases hq : q b
    · rw [List.filter_cons_of_pos hq, List.filter_cons_of_pos (himp b hq)]
      simpa using ih
    · rw [List.filter_cons_of_neg (by simpa using hq)]
      by_cases hp : p b
      · rw [List.filter_cons_of_pos hp]
        exact ih.trans (by simp)
      · rw [List.filter_cons_of_neg (by simpa using hp)]
        exact ih

theorem length_filter_lt_of_mem {α : Type} (p q : α → Bool) (l : List α) (a : α)
    (ha : a ∈ l) (hpa : p a = true) (hqa : q a = false)
    (himp : ∀ x, q x = true → p x = true) :
    (l.filter q).length < (l.filter p).length := by
  induction l with
  | nil => cases ha
  | cons b l ih =>
    rcases List.mem_cons.mp ha with rfl | hal
    · rw [List.filter_cons_of_pos hpa, List.filter_cons_of_neg (by simp [hqa])]
      exact Nat.lt_succ_of_le (length_filter_le_filter p q himp l)
    · by_cases hq : q b
      · rw [List.filter_cons_of_pos hq, List.filter_cons_of_pos (himp b hq)]
        simpa using ih hal
      · rw [List.filter_cons_of_neg (by simpa using hq)]
        by_cases hp : p b
        · rw [List.filter_cons_of_pos hp]
          exact (ih hal).trans (by simp)
        · rw [List.filter_cons_of_neg (by simpa using hp)]
          exact ih hal

/-- The count of names outside a visited set, the decreasing measure of every
loop of the resolver. -/
def restCount (K : List String) (set : List String) : Nat :=
  (K.filter (fun x => x ∉ set)).length

theorem restCount_le_of_subset (K : List String) {s s' : List String}
    (h : ∀ x ∈ s, x ∈ s') : restCount K s' ≤ restCount K s := by
  refine length_filter_le_filter _ _ ?_ K
  intro x hx
  simp only [decide_eq_true_eq] at hx ⊢
  intro hmem
  exact hx (h x hmem)

theorem restCount_append_lt (K : List String) (set : List String) (a : String)
    (haK : a ∈ K) (has : a ∉ set) :
    restCount K (set ++ [a]) < restCount K set := by
  refine length_filter_lt_of_mem _ _ K a haK (by simpa using has) (by simp) ?_
  intro x hx
  simp only [decide_eq_true_eq] at hx ⊢
  intro hmem
  exact hx (List.mem_append_left _ hmem)

theorem restCount_le_length (K : List String) (set : List String) :
    restCount K set ≤ K.length := by
  simpa using List.length_filter_le _ K

theorem restCount_lt_length (K : List String) (set : List String) (a : String)
    (haK : a ∈ K) (has : a ∈ set) : restCount K set < K.length := by
  have := length_filter_lt_of_mem (fun _ => true) (fun x => x ∉ set) K a haK rfl
    (by simpa using has) (fun x _ => rfl)
  simpa [restCount, List.filter_true] using this

/-! ### Loop invariants and stabilization (termination of the resolver) -/

theorem downWalkF_supset (lookup : String → Option BranchRecord) :
    ∀ (f : Nat) (set : List String) (node : Option BranchRecord),
      ∀ x ∈ set, x ∈ downWalkF lookup f set node
  | 0, _, _, x, hx => hx
  | _ + 1, _, none, x, hx => hx
  | f + 1, set, some node, x, hx => by
    rw [downWalkF_some]
    by_cases hmem : node.name ∈ set
    · simpa [hmem] using hx
    · simp only [hmem, if_false]
      cases hd : node.down with
      | none => exact List.mem_append_left _ hx
      | some link =>
        exact downWalkF_supset lookup f (set ++ [node.name]) (lookup link.name) x
          (List.mem_append_left _ hx)

theorem downWalkF_subset (lookup : String → Option BranchRecord) (K : List String)
    (hK : ∀ k r, lookup k = some r → r.name ∈ K) :
    ∀ (f : Nat) (set : List String) (node : Option BranchRecord),
      (∀ r, node = some r → r.name ∈ K) →
      ∀ x ∈ downWalkF lookup f set node, x ∈ set ∨ x ∈ K
  | 0, _, _, _, x, hx => Or.inl hx
  | _ + 1, _, none, _, x, hx => Or.inl hx
  | f + 1, set, some node, hn, x, hx => by
    rw [downWalkF_some] at hx
    by_cases hmem : node.name ∈ set
    · exact Or.inl (by simpa [hmem] using hx)
    · simp only [hmem, if_false] at hx
      have hnameK : node.name ∈ K := hn node rfl
      have hsplit : ∀ y, y ∈ set ++ [node.name] → y ∈ set ∨ y ∈ K := by
        intro y hy
        rcases List.mem_append.mp hy with hy' | hy'
        · exact Or.inl hy'
        · simp at hy'
          exact Or.inr (hy' ▸ hnameK)
      cases hd : node.down with
      | none =>
        rw [hd] at hx
        exact hsplit x hx
      | some link =>
        rw [hd] at hx
        rcases downWalkF_subset lookup K hK f (set ++ [node.name]) (lookup link.name)
          (fun r hr => hK link.name r hr) x hx with hx' | hx'
        · exact hsplit x hx'
        · exact Or.inr hx'

theorem downWalkF_nodup (lookup : String → Option BranchRecord) :
    ∀ (f : Nat) (set : List String) (node : Option BranchRecord),
      set.Nodup → (downWalkF lookup f set node).Nodup
  | 0, _, _, h => h
  | _ + 1, _, none, h => h
  | f + 1, set, some node, h => by
    rw [downWalkF_some]
    by_cases hmem : node.name ∈ set
    · simpa [hmem]
    · simp only [hmem, if_false]
      have hnd : (set ++ [node.name]).Nodup := by
        simp [List.nodup_append, h, hmem]
      cases node.down with
      | none => exact hnd
      | some link => exact downWalkF_nodup lookup f _ _ hnd

theorem downWalkF_stable (lookup : String → Option BranchRecord) (K : List String)
    (hK : ∀ k r, lookup k = some r → r.name ∈ K) :
    ∀ (μ : Nat) (set : List String) (node : Option BranchRecord),
      (∀ r, node = some r → r.name ∈ K) →
      restCount K set < μ →
      ∀ f₁ f₂, μ ≤ f₁ → μ ≤ f₂ →
        downWalkF lookup f₁ set node = downWalkF lookup f₂ set node := by
  intro μ
  induction μ with
  | zero => intro set node _ hlt; omega
  | succ m ih =>
    intro set node hn hlt f₁ f₂ hf₁ hf₂
    match f₁, f₂ with
    | g₁ + 1, g₂ + 1 =>
      cases node with
      | none => rfl
      | some r =>
        rw [downWalkF_some, downWalkF_some]
        by_cases hmem : r.name ∈ set
        · simp [hmem]
        · simp only [hmem, if_false]
          cases r.down with
          | none => rfl
          | some link =>
            have hrK : r.name ∈ K := hn r rfl
            have hdec : restCount K (set ++ [r.name]) < m :=
              Nat.lt_of_lt_of_le (restCount_append_lt K set r.name hrK hmem) (by omega)
            exact ih (set ++ [r.name]) (lookup link.name)
              (fun r' hr' => hK link.name r' hr') hdec g₁ g₂ (by omega) (by omega)

theorem bfsStep_measure (lookup : String → Option BranchRecord) (K : List String)
    (hK : ∀ k r, lookup k = some r → r.name ∈ K)
    (st : List String × List String) (link : BranchLink) :
    (bfsStep lookup st link).2.length + restCount K (bfsStep lookup st link).1 ≤
      st.2.length + restCount K st.1 := by
  unfold bfsStep
  cases hl : lookup link.name with
  | none => exact Nat.le_refl _
  | some child =>
    by_cases hmem : child.name ∈ st.1
    · simp [hmem]
    · simp only [hmem, if_false]
      have hlt : restCount K (st.1 ++ [child.name]) < restCount K st.1 :=
        restCount_append_lt K st.1 child.name (hK link.name child hl) hmem
      simp only [List.length_append, List.length_cons, List.length_nil]
      omega

theorem bfsStep_foldl_measure (lookup : String → Option BranchRecord) (K : List String)
    (hK : ∀ k r, lookup k = some r → r.name ∈ K) (links : List BranchLink)
    (st : List String × List String) :
    (links.foldl (bfsStep lookup) st).2.length +
        restCount K (links.foldl (bfsStep lookup) st).1 ≤
      st.2.length + restCount K st.1 := by
  induction links generalizing st with
  | nil => exact Nat.le_refl _
  | cons link rest ih =>
    rw [List.foldl_cons]
    exact (ih (bfsStep lookup st link)).trans (bfsStep_measure lookup K hK st link)

theorem bfsF_stable (lookup : String → Option BranchRecord) (K : List String)
    (hK : ∀ k r, lookup k = some r → r.name ∈ K) :
    ∀ (μ : Nat) (set queue : List String),
      queue.length + restCount K set < μ →
      ∀ f₁ f₂, μ ≤ f₁ → μ ≤ f₂ →
        bfsF lookup f₁ set queue = bfsF lookup f₂ set queue := by
  intro μ
  induction μ with
  | zero => intro set queue hlt; omega
  | succ m ih =>
    intro set queue hlt f₁ f₂ hf₁ hf₂
    match f₁, f₂ with
    | g₁ + 1, g₂ + 1 =>
      cases queue with
      | nil => rfl
      | cons name rest =>
        rw [bfsF_cons, bfsF_cons]
        cases hl : lookup name with
        | none =>
          simp only [List.length_cons] at hlt
          exact ih set rest (by omega) g₁ g₂ (by omega) (by omega)
        | some branch =>
          have hfold := bfsStep_foldl_measure lookup K hK branch.ups (set, rest)
          simp only [] at hfold
          simp only [List.length_cons] at hlt
          exact ih _ _ (by omega) g₁ g₂ (by omega) (by omega)

theorem bfsF_subset (lookup : String → Option BranchRecord) (K : List String)
    (hK : ∀ k r, lookup k = some r → r.name ∈ K) :
    ∀ (f : Nat) (set queue : List String),
      ∀ x ∈ bfsF lookup f set queue, x ∈ set ∨ x ∈ K := by
  intro f
  induction f with
  | zero => intro set queue x hx; exact Or.inl hx
  | succ g ih =>
    intro set queue x hx
    cases queue with
    | nil => exact Or.inl hx
    | cons name rest =>
      rw [bfsF_cons] at hx
      cases hl : lookup name with
      | none =>
        rw [hl] at hx
        exact ih set rest x hx
      | some branch =>
        rw [hl] at hx
        have hstep : ∀ (st : List String × List String) (link : BranchLink),
            (∀ y ∈ st.1, y ∈ set ∨ y ∈ K) →
            ∀ y ∈ (bfsStep lookup st link).1, y ∈ set ∨ y ∈ K := by
          intro st link hst y hy
          unfold bfsStep at hy
          cases hl' : lookup link.name with
          | none =>
            rw [hl'] at hy
            exact hst y hy
          | some child =>
            rw [hl'] at hy
            by_cases hmem : child.name ∈ st.1
            · simp only [hmem, if_true] at hy
              exact hst y hy
            · simp only [hmem, if_false] at hy
              rcases List.mem_append.mp hy with hy' | hy'
              · exact hst y hy'
              · simp at hy'
                exact Or.inr (hy' ▸ hK link.name child hl')
        have hfold : ∀ (links : List BranchLink) (st : List String × List String),
            (∀ y ∈ st.1, y ∈ set ∨ y ∈ K) →
            ∀ y ∈ (links.foldl (bfsStep lookup) st).1, y ∈ set ∨ y ∈ K := by
          intro links
          induction links with
          | nil => intro st hst; exact hst
          | cons l ls ihl =>
            intro st hst
            rw [List.foldl_cons]
            exact ihl _ (hstep st l hst)
        rcases ih _ _ x hx with hx' | hx'
        · exact hfold branch.ups (set, rest) (fun y hy => Or.inl hy) x hx'
        · exact Or.inr hx'

theorem bfsF_nodup (lookup : String → Option BranchRecord) :
    ∀ (f : Nat) (set queue : List String), set.Nodup → (bfsF lookup f set queue).Nodup := by
  intro f
  induction f with
  | zero => intro set queue h; exact h
  | succ g ih =>
    intro set queue h
    cases queue with
    | nil => exact h
    | cons name rest =>
      rw [bfsF_cons]
      cases hl : lookup name with
      | none => exact ih set rest h
      | some branch =>
        have hstep : ∀ (st : List String × List String) (link : BranchLink),
            st.1.Nodup → (bfsStep lookup st link).1.Nodup := by
          intro st link hst
          unfold bfsStep
          cases hl' : lookup link.name with
          | none => exact hst
          | some child =>
            by_cases hmem : child.name ∈ st.1
            · simpa [hmem]
            · simp only [hmem, if_false]
              simp [List.nodup_append, hst, hmem]
        have hfold : ∀ (links : List BranchLink) (st : List String × List String),
            st.1.Nodup → (links.foldl (bfsStep lookup) st).1.Nodup := by
          intro links
          induction links with
          | nil => intro st hst; exact hst
          | cons l ls ihl =>
            intro st hst
            rw [List.foldl_cons]
            exact ihl _ (hstep st l hst)
        exact ih _ _ (hfold branch.ups (set, rest) h)

theorem mem_insertByName (b x : BranchRecord) :
    ∀ l : List BranchRecord, x ∈ insertByName b l ↔ x = b ∨ x ∈ l
  | [] => by simp [insertByName]
  | c :: rest => by
    unfold insertByName
    by_cases h : b.name < c.name
    · simp [h]
    · rw [if_neg h]
      simp only [List.mem_cons, mem_insertByName b x rest]
      tauto

theorem mem_sortByName (x : BranchRecord) : ∀ l : List BranchRecord, x ∈ sortByName l ↔ x ∈ l
  | [] => by simp [sortByName]
  | c :: rest => by
    have hrest := mem_sortByName x rest
    simp only [sortByName, List.foldr_cons] at *
    rw [mem_insertByName]
    simp only [List.mem_cons, hrest]

theorem traverseF_visited_mono (sb : List BranchRecord) (lookup : String → Option BranchRecord) :
    ∀ (f : Nat) (st : List BranchRecord × List String) (b : BranchRecord),
      ∀ x ∈ st.2, x ∈ (traverseF sb lookup f st b).2 := by
  intro f
  induction f with
  | zero => intro st b x hx; exact hx
  | succ g ih =>
    intro st b x hx
    obtain ⟨ordered, visited⟩ := st
    rw [traverseF_succ]
    by_cases hmem : b.name ∈ visited
    · simpa [hmem] using hx
    · simp only [hmem, if_false]
      refine foldl_preserves _ (fun st' => x ∈ st'.2) (fun st' a h => ih st' a x h) _ _ ?_
      exact List.mem_append_left _ hx

/-- The invariant carried by the DFS of `orderStack`: names in the output are
distinct and every pushed branch name has been marked visited. -/
def orderedInv (st : List BranchRecord × List String) : Prop :=
  (st.1.map (fun b => b.name)).Nodup ∧ ∀ b ∈ st.1, b.name ∈ st.2

theorem traverseF_orderedInv (sb : List BranchRecord) (lookup : String → Option BranchRecord) :
    ∀ (f : Nat) (st : List BranchRecord × List String) (b : BranchRecord),
      orderedInv st → orderedInv (traverseF sb lookup f st b) := by
  intro f
  induction f with
  | zero => exact fun st b h => h
  | succ g ih =>
    intro st b h
    obtain ⟨ordered, visited⟩ := st
    rw [traverseF_succ]
    by_cases hmem : b.name ∈ visited
    · simpa [hmem] using h
    · simp only [hmem, if_false]
      refine foldl_preserves _ orderedInv (fun st' a h' => ih st' a h') _ _ ?_
      constructor
      · simp only [List.map_append, List.map_cons, List.map_nil]
        rw [List.nodup_append]
        refine ⟨h.1, by simp, ?_⟩
        intro n hn hn'
        simp only [List.mem_cons, List.not_mem_nil, or_false] at hn'
        obtain ⟨rec, hrec, hrname⟩ := List.mem_map.mp hn
        exact hmem (by rw [← hn', ← hrname]; exact h.2 rec hrec)
      · intro b' hb'
        rcases List.mem_append.mp hb' with hb'' | hb''
        · exact List.mem_append_left _ (h.2 b' hb'')
        · simp at hb''
          simp [hb'']

theorem traverseF_stable_aux (sb : List BranchRecord) (lookup : String → Option BranchRecord) :
    ∀ (μ : Nat),
      (∀ (ordered : List BranchRecord) (visited : List String) (b : BranchRecord),
        b ∈ sb → restCount (sb.map (fun r => r.name)) visited < μ →
        ∀ f₁ f₂, μ ≤ f₁ → μ ≤ f₂ →
          traverseF sb lookup f₁ (ordered, visited) b =
            traverseF sb lookup f₂ (ordered, visited) b) ∧
      (∀ (queue : List BranchRecord), (∀ c ∈ queue, c ∈ sb) →
        ∀ (st : List BranchRecord × List String),
          restCount (sb.map (fun r => r.name)) st.2 < μ →
          ∀ f₁ f₂, μ ≤ f₁ → μ ≤ f₂ →
            queue.foldl (traverseF sb lookup f₁) st = queue.foldl (traverseF sb lookup f₂) st) := by
  intro μ
  induction μ using Nat.strong_induction_on with
  | _ μ ih =>
    have part1 : ∀ (ordered : List BranchRecord) (visited : List String) (b : BranchRecord),
        b ∈ sb → restCount (sb.map (fun r => r.name)) visited < μ →
        ∀ f₁ f₂, μ ≤ f₁ → μ ≤ f₂ →
          traverseF sb lookup f₁ (ordered, visited) b =
            traverseF sb lookup f₂ (ordered, visited) b := by
      intro ordered visited b hb hlt f₁ f₂ hf₁ hf₂
      obtain ⟨g₁, rfl⟩ : ∃ g, f₁ = g + 1 := ⟨f₁ - 1, by omega⟩
      obtain ⟨g₂, rfl⟩ : ∃ g, f₂ = g + 1 := ⟨f₂ - 1, by omega⟩
      rw [traverseF_succ, traverseF_succ]
      by_cases hmem : b.name ∈ visited
      · simp [hmem]
      · simp only [hmem, if_false]
        have hbK : b.name ∈ sb.map (fun r => r.name) := List.mem_map_of_mem _ hb
        have hdrop := restCount_append_lt (sb.map (fun r => r.name)) visited b.name hbK hmem
        have hm₀ : μ - 1 < μ := by omega
        refine (ih (μ - 1) hm₀).2 _ ?_ _ ?_ g₁ g₂ (by omega) (by omega)
        · intro c hc
          rw [mem_sortByName] at hc
          have := List.mem_filter.mp hc
          simpa using this.2
        · show restCount (sb.map (fun r => r.name)) (visited ++ [b.name]) < μ - 1
          omega
    refine ⟨part1, ?_⟩
    intro queue
    induction queue with
    | nil => intro hq st hlt f₁ f₂ hf₁ hf₂; rfl
    | cons c rest ihq =>
      intro hq st hlt f₁ f₂ hf₁ hf₂
      rw [List.foldl_cons, List.foldl_cons]
      have h1 : traverseF sb lookup f₁ st c = traverseF sb lookup f₂ st c := by
        obtain ⟨o, v⟩ := st
        exact part1 o v c (hq c (by simp)) hlt f₁ f₂ hf₁ hf₂
      rw [h1]
      refine ihq (fun c' hc' => hq c' (by simp [hc'])) _ ?_ f₁ f₂ hf₁ hf₂
      calc restCount (sb.map (fun r => r.name)) (traverseF sb lookup f₂ st c).2 ≤
          restCount (sb.map (fun r => r.name)) st.2 :=
            restCount_le_of_subset _ (traverseF_visited_mono sb lookup f₂ st c)
        _ < μ := hlt

theorem restCount_nil (K : List String) : restCount K [] = K.length := by
  simp [restCount]

theorem orderStackF_stable (sb : List BranchRecord) (lookup : String → Option BranchRecord)
    (f₁ f₂ : Nat) (hf₁ : sb.length + 1 ≤ f₁) (hf₂ : sb.length + 1 ≤ f₂) :
    orderStackF f₁ sb lookup = orderStackF f₂ sb lookup := by
  simp only [orderStackF]
  have hfold := (traverseF_stable_aux sb lookup (sb.length + 1)).2
  have hqueue : ∀ c ∈ (if (sortByName (sb.filter (isRoot lookup))).length > 0
      then sortByName (sb.filter (isRoot lookup)) else sb), c ∈ sb := by
    intro c hc
    split at hc
    · rw [mem_sortByName] at hc
      exact (List.mem_filter.mp hc).1
    · exact hc
  rw [hfold _ hqueue ([], [])
    (by rw [restCount_nil]; simp) f₁ f₂ hf₁ hf₂]

theorem branchLookup_mem {branches : List BranchRecord} {k : String} {r : BranchRecord}
    (h : branchLookup branches k = some r) : r ∈ branches ∧ r.name = k := by
  unfold branchLookup at h
  have hmem : r ∈ branches.filter (fun b => b.name = k) := List.mem_of_mem_getLast? h
  have := List.mem_filter.mp hmem
  exact ⟨this.1, by simpa using this.2⟩

theorem resolveF_stable2 (records : List BranchRecord) (f₁ f₂ : Nat)
    (hf₁ : records.length + 2 ≤ f₁) (hf₂ : records.length + 2 ≤ f₂) :
    resolveF f₁ records = resolveF f₂ records := by
  cases hfind : records.find? (fun b => b.current) with
  | none => simp only [resolveF, hfind]
  | some current =>
    simp only [resolveF, hfind]
    have hK : ∀ k r, branchLookup records k = some r →
        r.name ∈ records.map (fun b => b.name) :=
      fun k r h => List.mem_map_of_mem _ (branchLookup_mem h).1
    have hcur : current ∈ records := List.mem_of_find?_eq_some hfind
    have hcurK : current.name ∈ records.map (fun b => b.name) :=
      List.mem_map_of_mem _ hcur
    have hKlen : (records.map (fun b => b.name)).length = records.length := by simp
    have hnode : ∀ r : BranchRecord, (some current : Option BranchRecord) = some r →
        r.name ∈ records.map (fun b => b.name) := by
      intro r hr
      obtain rfl : current = r := by injection hr
      exact hcurK
    have hdw : downWalkF (branchLookup records) f₁ [] (some current) =
        downWalkF (branchLookup records) f₂ [] (some current) :=
      downWalkF_stable (branchLookup records) (records.map (fun b => b.name)) hK
        (records.length + 1) [] (some current) hnode
        (by rw [restCount_nil, hKlen]; omega) f₁ f₂ (by omega) (by omega)
    have hcur_set : current.name ∈ downWalkF (branchLookup records) f₂ [] (some current) := by
      obtain ⟨g, rfl⟩ : ∃ g, f₂ = g + 1 := ⟨f₂ - 1, by omega⟩
      rw [downWalkF_some]
      rw [if_neg (List.not_mem_nil _)]
      cases current.down with
      | none => simp
      | some link =>
        exact downWalkF_supset _ g _ _ current.name (by simp)
    have hbfs : bfsF (branchLookup records) f₁
          (downWalkF (branchLookup records) f₂ [] (some current)) [current.name] =
        bfsF (branchLookup records) f₂
          (downWalkF (branchLookup records) f₂ [] (some current)) [current.name] := by
      refine bfsF_stable (branchLookup records) (records.map (fun b => b.name)) hK
        (records.length + 1) _ [current.name] ?_ f₁ f₂ (by omega) (by omega)
      have := restCount_lt_length (records.map (fun b => b.name))
        (downWalkF (branchLookup records) f₂ [] (some current)) current.name hcurK hcur_set
      simp only [List.length_cons, List.length_nil]
      omega
    have hfs : computeFocusSetF f₁ records current = computeFocusSetF f₂ records current := by
      simp only [computeFocusSetF]
      rw [hdw, hbfs]
    rw [hfs]
    have hFSnodup : (computeFocusSetF f₂ records current).Nodup := by
      simp only [computeFocusSetF]
      exact bfsF_nodup _ f₂ _ _ (downWalkF_nodup _ f₂ [] _ (by simp))
    have hFSsub : ∀ x ∈ computeFocusSetF f₂ records current,
        x ∈ records.map (fun b => b.name) := by
      intro x hx
      simp only [computeFocusSetF] at hx
      rcases bfsF_subset (branchLookup records) (records.map (fun b => b.name)) hK
        f₂ _ [current.name] x hx with hx' | hx'
      · rcases downWalkF_subset (branchLookup records) (records.map (fun b => b.name)) hK
          f₂ [] (some current) hnode x hx' with h | h
        · cases h
        · exact h
      · exact hx'
    have hFSlen : (computeFocusSetF f₂ records current).length ≤ records.length := by
      calc (computeFocusSetF f₂ records current).length
          = (computeFocusSetF f₂ records current).toFinset.card :=
            (List.toFinset_card_of_nodup hFSnodup).symm
        _ ≤ (records.map (fun b => b.name)).toFinset.card := by
            refine Finset.card_le_card ?_
            intro x hx
            rw [List.mem_toFinset] at hx ⊢
            exact hFSsub x hx
        _ ≤ (records.map (fun b => b.name)).length := (records.map (fun b => b.name)).toFinset_card_le
        _ = records.length := hKlen
    have hsblen : ((computeFocusSetF f₂ records current).filterMap (branchLookup records)).length ≤
        records.length :=
      le_trans (List.length_filterMap_le _ _) hFSlen
    exact orderStackF_stable _ (branchLookup records) f₁ f₂ (by omega) (by omega)

/-- More fuel than the canonical `records.length + 2` never changes the result
of the resolver: all three loops reach their natural break conditions within
the canonical fuel.  This is the formal content of "resolution terminates". -/
theorem resolveF_stable (records : List BranchRecord) (f : Nat)
    (hf : records.length + 2 ≤ f) : resolveF f records = resolve records :=
  resolveF_stable2 records f (records.length + 2) hf (Nat.le_refl _)

/-- The resolver never emits two records with the same name: the DFS visited
set guards every push. -/
theorem resolve_names_nodup (records : List BranchRecord) :
    ((resolve records).map (fun b => b.name)).Nodup := by
  cases hfind : records.find? (fun b => b.current) with
  | none => simp [resolve, resolveF, hfind]
  | some current =>
    simp only [resolve, resolveF, hfind, orderStackF]
    have hinv := foldl_preserves
      (traverseF ((computeFocusSetF (records.length + 2) records current).filterMap
        (branchLookup records)) (branchLookup records) (records.length + 2))
      orderedInv
      (traverseF_orderedInv _ _ _)
      (if (sortByName (((computeFocusSetF (records.length + 2) records current).filterMap
          (branchLookup records)).filter (isRoot (branchLookup records)))).length > 0
        then sortByName (((computeFocusSetF (records.length + 2) records current).filterMap
          (branchLookup records)).filter (isRoot (branchLookup records)))
        else (computeFocusSetF (records.length + 2) records current).filterMap
          (branchLookup records))
      ([], []) ⟨by simp, by simp⟩
    exact hinv.1

/-- C6: `resolve` is a deterministic function of its input record set: two
runs on equal inputs produce equal output orders, even when the two runs give
their loops different fuel budgets (at or beyond the canonical bound). -/
theorem resolve_deterministic (records₁ records₂ : List BranchRecord)
    (h : records₁ = records₂) :
    resolve records₁ = resolve records₂ ∧
    ∀ f₁ f₂, records₁.length + 2 ≤ f₁ → records₁.length + 2 ≤ f₂ →
      resolveF f₁ records₁ = resolveF f₂ records₂ := by
  subst h
  exact ⟨rfl, fun f₁ f₂ h₁ h₂ => resolveF_stable2 records₁ f₁ f₂ h₁ h₂⟩

/-- Witness for C6. -/
theorem resolve_deterministic_witness :
    resolve [sampleA, sampleB] = resolve [sampleA, sampleB] ∧
    ∀ f₁ f₂, ([sampleA, sampleB] : List BranchRecord).length + 2 ≤ f₁ →
      ([sampleA, sampleB] : List BranchRecord).length + 2 ≤ f₂ →
      resolveF f₁ [sampleA, sampleB] = resolveF f₂ [sampleA, sampleB] :=
  resolve_deterministic [sampleA, sampleB] [sampleA, sampleB] rfl

/-! ### C3: focus-set correctness on the main <- feature <- feature-docs chain -/

/-- The trunk record of the spec scenario. -/
def mainRec : BranchRecord :=
  { name := "main", current := false, down := none, ups := [⟨"feature", false⟩],
    change := none, commits := none }

/-- The current branch of the spec scenario, stacked on `main`. -/
def featureRec : BranchRecord :=
  { name := "feature", current := true, down := some ⟨"main", false⟩,
    ups := [⟨"feature-docs", false⟩], change := none, commits := none }

/-- The top branch of the spec scenario, stacked on `feature`. -/
def featureDocsRec : BranchRecord :=
  { name := "feature-docs", current := false, down := some ⟨"feature", false⟩,
    ups := [], change := none, commits := none }

theorem filter_name_extras_nil (extras : List BranchRecord) (n : String)
    (hfresh : ∀ e ∈ extras, e.name ≠ n) :
    extras.filter (fun b => b.name = n) = [] := by
  rw [List.filter_eq_nil_iff]
  intro a ha
  simpa using hfresh a ha

/-- The focus set of the chain scenario, computed with any unrelated extra
records appended: exactly the insertion-ordered `feature`, `main`,
`feature-docs`. -/
theorem computeFocusSet_chain (extras : List BranchRecord)
    (hfresh : ∀ e ∈ extras,
      e.name ≠ "main" ∧ e.name ≠ "feature" ∧ e.name ≠ "feature-docs") :
    computeFocusSet (mainRec :: featureRec :: featureDocsRec :: extras) featureRec =
      ["feature", "main", "feature-docs"] := by
  have hmain : branchLookup (mainRec :: featureRec :: featureDocsRec :: extras) "main" =
      some mainRec := by
    simp only [branchLookup, List.filter_cons,
      filter_name_extras_nil extras "main" (fun e he => (hfresh e he).1)]
    simp [mainRec, featureRec, featureDocsRec]
  have hfeature : branchLookup (mainRec :: featureRec :: featureDocsRec :: extras) "feature" =
      some featureRec := by
    simp only [branchLookup, List.filter_cons,
      filter_name_extras_nil extras "feature" (fun e he => (hfresh e he).2.1)]
    simp [mainRec, featureRec, featureDocsRec]
  have hdocs : branchLookup (mainRec :: featureRec :: featureDocsRec :: extras) "feature-docs" =
      some featureDocsRec := by
    simp only [branchLookup, List.filter_cons,
      filter_name_extras_nil extras "feature-docs" (fun e he => (hfresh e he).2.2)]
    simp [mainRec, featureRec, featureDocsRec]
  have hfuel : (mainRec :: featureRec :: featureDocsRec :: extras).length + 2 =
      (extras.length + 4) + 1 := by
    simp only [List.length_cons]
  have hfn : featureRec.name = "feature" := rfl
  simp only [computeFocusSet, computeFocusSetF, hfuel, hfn]
  have hdw : downWalkF (branchLookup (mainRec :: featureRec :: featureDocsRec :: extras))
      ((extras.length + 4) + 1) [] (some featureRec) = ["feature", "main"] := by
    show downWalkF (branchLookup (mainRec :: featureRec :: featureDocsRec :: extras))
      (extras.length + 4) ["feature"]
      (branchLookup (mainRec :: featureRec :: featureDocsRec :: extras) "main") = _
    rw [hmain]
    rfl
  rw [hdw, bfsF_cons, hfeature]
  show bfsF (branchLookup (mainRec :: featureRec :: featureDocsRec :: extras))
      (extras.length + 4)
      (bfsStep (branchLookup (mainRec :: featureRec :: featureDocsRec :: extras))
        (["feature", "main"], []) ⟨"feature-docs", false⟩).1
      (bfsStep (branchLookup (mainRec :: featureRec :: featureDocsRec :: extras))
        (["feature", "main"], []) ⟨"feature-docs", false⟩).2 = _
  simp only [bfsStep, hdocs]
  show bfsF (branchLookup (mainRec :: featureRec :: featureDocsRec :: extras))
      (extras.length + 4) ["feature", "main", "feature-docs"] ["feature-docs"] = _
  rw [show extras.length + 4 = (extras.length + 3) + 1 from rfl, bfsF_cons, hdocs]
  show bfsF (branchLookup (mainRec :: featureRec :: featureDocsRec :: extras))
      (extras.length + 3) ["feature", "main", "feature-docs"] [] = _
  rw [show extras.length + 3 = (extras.length + 2) + 1 from rfl, bfsF_empty]

/-- C3: with `main <- feature <- feature-docs` down-links, `feature` marked
current, and any extra unrelated branch records appended (names distinct from
the chain, not current), the first current record found is `feature` and the
computed focus set is exactly `{main, feature, feature-docs}`. -/
theorem computeFocusSet_correct (extras : List BranchRecord)
    (hfresh : ∀ e ∈ extras,
      e.name ≠ "main" ∧ e.name ≠ "feature" ∧ e.name ≠ "feature-docs" ∧ e.current = false) :
    (mainRec :: featureRec :: featureDocsRec :: extras).find? (fun b => b.current) =
      some featureRec ∧
    ∀ s, s ∈ computeFocusSet (mainRec :: featureRec :: featureDocsRec :: extras) featureRec ↔
      (s = "main" ∨ s = "feature" ∨ s = "feature-docs") := by
  constructor
  · simp [List.find?_cons, mainRec, featureRec]
  · intro s
    rw [computeFocusSet_chain extras (fun e he => ⟨(hfresh e he).1, (hfresh e he).2.1,
      (hfresh e he).2.2.1⟩)]
    simp only [List.mem_cons, List.mem_nil_iff, or_false]
    tauto

/-- Witness for C3: one concrete unrelated extra record. -/
theorem computeFocusSet_correct_witness :
    ((mainRec :: featureRec :: featureDocsRec :: [sampleB]).find? (fun b => b.current) =
      some featureRec) ∧
    ∀ s, s ∈ computeFocusSet (mainRec :: featureRec :: featureDocsRec :: [sampleB]) featureRec ↔
      (s = "main" ∨ s = "feature" ∨ s = "feature-docs") :=
  computeFocusSet_correct [sampleB] (by decide)

/-! ### C4: cycle safety -/

/-- A branch whose `down` link points to itself, marked current, with one
`ups` child. -/
def cycleA : BranchRecord :=
  { name := "a", current := true, down := some ⟨"a", false⟩, ups := [⟨"b", false⟩],
    change := none, commits := none }

/-- A root branch reachable from `cycleA` through its `ups` link. -/
def cycleB : BranchRecord :=
  { name := "b", current := false, down := none, ups := [], change := none, commits := none }

/-- Counterexample to C4 as stated: with `a.down = a`, `a` current, `a.ups
= [b]` and `b` a root, the focus set is `{a, b}` but the DFS starts (only)
from the root `b`, from which `a` is not reachable, so the resolved output is
`[b]` and contains `a` zero times — not exactly once. -/
theorem resolve_selfloop_counterexample :
    cycleA.down = some ⟨cycleA.name, false⟩ ∧ cycleA.current = true ∧
    cycleA ∈ [cycleA, cycleB] ∧
    (resolve [cycleA, cycleB]).count cycleA = 0 ∧
    (resolve [cycleA, cycleB]).map (fun b => b.name) = ["b"] := by
  refine ⟨rfl, rfl, by simp, ?_, ?_⟩ <;> decide

/-- C4 amended: for any record set containing a branch `a` with a
self-referential `down` link, resolution terminates — giving the loops any
fuel beyond the canonical bound changes nothing — and the resolved output
contains `a` at most once (it can drop `a` entirely, see the
counterexample). -/
theorem resolve_selfloop_amended (records : List BranchRecord) (a : BranchRecord)
    (dl : BranchLink) (ha : a ∈ records) (hd : a.down = some dl) (hdn : dl.name = a.name) :
    (∀ f, records.length + 2 ≤ f → resolveF f records = resolve records) ∧
    (resolve records).count a ≤ 1 := by
  refine ⟨fun f hf => resolveF_stable records f hf, ?_⟩
  have hnd : (resolve records).Nodup := (resolve_names_nodup records).of_map
  exact List.nodup_iff_count_le_one.mp hnd a

/-- Witness for C4 amended, at the counterexample input. -/
theorem resolve_selfloop_amended_witness :
    (∀ f, ([cycleA, cycleB] : List BranchRecord).length + 2 ≤ f →
      resolveF f [cycleA, cycleB] = resolve [cycleA, cycleB]) ∧
    (resolve [cycleA, cycleB]).count cycleA ≤ 1 :=
  resolve_selfloop_amended [cycleA, cycleB] cycleA ⟨"a", false⟩ (by simp) (by decide) (by decide)

/-! ### The Reconciliation Engine (`diffList` in media/stackView.js)

The DOM container is modelled as a list of elements in document order.  Each
element carries its `data-key` attribute, its `item-exit` class (the
`exiting` flag set by `animateOut`), and an identity `id` standing for
JavaScript object identity (fresh ids come from a counter, mirroring the
fact that `document.createElement` always returns a new object).  The
`render`/`update`/`needsUpdate` callbacks of the source only replace the
`[data-content]` child inside a wrapper and never touch the wrapper's key,
classes or position, so the wrapper content is not modelled.  `setTimeout`
callbacks scheduled by `animateOut` are modelled as a list of pending
element ids; firing one runs the guarded removal
`if (element.parentNode === container) container.removeChild(element)`. -/

/-- One keyed wrapper element (`li.stack-item` / `div.commit-wrapper`). -/
structure RElem where
  id : Nat
  key : String
  exiting : Bool
deriving DecidableEq, Repr

/-- The container's children (in document order), the pending `animateOut`
removal callbacks (by captured element id) and the fresh-identity counter. -/
structure RState where
  children : List RElem
  timers : List Nat
  nextId : Nat
deriving DecidableEq, Repr

/-- A container that has never been rendered into. -/
def emptyRState : RState := { children := [], timers := [], nextId := 0 }

/-- Whether phase 2 of `diffList` animates this element out: the element is a
value of the phase-1 key map (`if (key)` skips empty keys and `Map.set`
keeps only the last element per key) whose key is absent from `newKeys`. -/
def staleInMap (children : List RElem) (newKeys : List String) (e : RElem) : Prop :=
  e.key ≠ "" ∧ e.key ∉ newKeys ∧
    (children.filter (fun x => x.key = e.key)).getLast? = some e

instance (children : List RElem) (newKeys : List String) (e : RElem) :
    Decidable (staleInMap children newKeys e) := by
  unfold staleInMap
  infer_instance

/-- Phase 2 of `diffList`: add the `item-exit` class to every stale map
entry (stackView.js lines 123-133). -/
def markExit (children : List RElem) (newKeys : List String) : List RElem :=
  children.map (fun e =>
    if staleInMap children newKeys e then { e with exiting := true } else e)

/-- The removal callbacks scheduled by phase 2, one per stale map entry
(`animateOut(element, () => { ... })`, stackView.js lines 126-130). -/
def exitTimers (children : List RElem) (newKeys : List String) : List Nat :=
  (children.filter (fun e => staleInMap children newKeys e)).map (fun e => e.id)

/-- The key map consulted by phase 3: built from the container's children in
document order (last element per key wins, empty keys skipped), with the
entries whose key is absent from `newKeys` deleted by phase 2.  Phase 3 only
queries keys of `newItems`, so the deletion clause is unobservable there. -/
def keyLookup (children : List RElem) (newKeys : List String) (k : String) : Option RElem :=
  if k = "" ∨ k ∉ newKeys then none
  else (children.filter (fun e => e.key = k)).getLast?

/-- `element.nextSibling` of the element with the given id. -/
def idAfter : List RElem → Nat → Option Nat
  | [], _ => none
  | e :: rest, p => if e.id = p then rest.head?.map (fun x => x.id) else idAfter rest p

/-- `previousElement ? previousElement.nextSibling : container.firstChild`
(stackView.js lines 153 and 167), as the id of the reference node. -/
def nextRef (children : List RElem) (prev : Option Nat) : Option Nat :=
  match prev with
  | none => children.head?.map (fun e => e.id)
  | some p => idAfter children p

/-- `container.insertBefore(e, ref)` with `ref` already detached from `e`:
insert `e` before the child with id `ref`, or append when `ref` is null.
A missing `ref` child is modelled as append (the source never reaches that
case; the DOM would throw). -/
def insertBeforeRef : List RElem → RElem → Option Nat → List RElem
  | children, e, none => children ++ [e]
  | [], e, some _ => [e]
  | c :: rest, e, some r =>
    if c.id = r then e :: c :: rest else c :: insertBeforeRef rest e (some r)

/-- `container.insertBefore(e, ref)`: the DOM first detaches `e` from its
current position, then inserts it before `ref`. -/
def insertBefore (children : List RElem) (e : RElem) (ref : Option Nat) : List RElem :=
  insertBeforeRef (children.filter (fun x => x.id ≠ e.id)) e ref

/-- Phase 3 of `diffList` (stackView.js lines 136-173): walk `newItems` with
a previous-sibling cursor, reusing elements found in the key map (moving them
after the cursor when out of place) and rendering fresh wrappers for new
keys. -/
def placeItems {α : Type} (getKey : α → String) (lookup : String → Option RElem) :
    List α → List RElem → Option Nat → Nat → List RElem × Nat
  | [], children, _, nid => (children, nid)
  | item :: rest, children, prev, nid =>
    match lookup (getKey item) with
    | some e =>
      let ref := nextRef children prev
      let children' := if ref = some e.id then children else insertBefore children e ref
      placeItems getKey lookup rest children' (some e.id) nid
    | none =>
      let f : RElem := { id := nid, key := getKey item, exiting := false }
      let children' := insertBefore children f (nextRef children prev)
      placeItems getKey lookup rest children' (some nid) (nid + 1)

/-- `diffList(container, oldItems, newItems, config)` (stackView.js lines
102-174).  The `oldItems` argument of the source is never read by the
function body; the previous state lives in the container itself. -/
def diffList {α : Type} (st : RState) (items : List α) (getKey : α → String) : RState :=
  let newKeys := items.map getKey
  let marked := markExit st.children newKeys
  let placed := placeItems getKey (keyLookup marked newKeys) items marked none st.nextId
  { children := placed.1
    timers := st.timers ++ exitTimers st.children newKeys
    nextId := placed.2 }

/-- Firing one scheduled `animateOut` completion: the callback removes its
captured element only if that element is still a child of the container
(`if (element.parentNode === container) container.removeChild(element)`,
stackView.js lines 126-129). -/
def fireTimer (st : RState) (t : Nat) : RState :=
  { children := st.children.filter (fun e => e.id ≠ t)
    timers := st.timers.erase t
    nextId := st.nextId }

/-- The keys of the live (non-exiting) children, in document order. -/
def liveKeys (children : List RElem) : List String :=
  (children.filter (fun e => e.exiting = false)).map (fun e => e.key)

/-! ### Reconciliation helper lemmas -/

theorem mem_id_eq {l : List RElem} (h : (l.map (fun e => e.id)).Nodup)
    {x y : RElem} (hx : x ∈ l) (hy : y ∈ l) (hxy : x.id = y.id) : x = y :=
  List.inj_on_of_nodup_map h hx hy hxy

theorem append_ids_disjoint {P R : List RElem}
    (hids : ((P ++ R).map (fun e => e.id)).Nodup) :
    ∀ x ∈ P, ∀ y ∈ R, x.id ≠ y.id := by
  rw [List.map_append, List.nodup_append] at hids
  intro x hx y hy hcontra
  exact (List.disjoint_left.mp hids.2.2) (List.mem_map_of_mem _ hx)
    (hcontra ▸ List.mem_map_of_mem _ hy)

theorem idAfter_append (R : List RElem) :
    ∀ (P : List RElem) (p : RElem), P.getLast? = some p →
      ((P ++ R).map (fun e => e.id)).Nodup →
      idAfter (P ++ R) p.id = R.head?.map (fun e => e.id)
  | [], p, hlast, _ => by simp at hlast
  | [x], p, hlast, hids => by
    simp only [List.getLast?_singleton, Option.some_inj] at hlast
    subst hlast
    simp [idAfter]
  | x :: y :: P', p, hlast, hids => by
    have hlast' : (y :: P').getLast? = some p := by
      rw [List.getLast?_cons_cons] at hlast
      exact hlast
    have hpmem : p ∈ y :: P' := List.mem_of_mem_getLast? hlast'
    have hids0 := hids
    rw [List.cons_append, List.map_cons, List.nodup_cons] at hids0
    have hxp : x.id ≠ p.id := by
      intro hcontra
      exact hids0.1 (hcontra ▸ List.mem_map_of_mem _ (List.mem_append_left _ hpmem))
    show idAfter (x :: ((y :: P') ++ R)) p.id = _
    simp only [idAfter, hxp, if_false]
    exact idAfter_append R (y :: P') p hlast' hids0.2

theorem nextRef_append (P R : List RElem)
    (hids : ((P ++ R).map (fun e => e.id)).Nodup) :
    nextRef (P ++ R) (P.getLast?.map (fun e => e.id)) = R.head?.map (fun e => e.id) := by
  cases hP : P.getLast? with
  | none =>
    have hPnil : P = [] := List.getLast?_eq_none_iff.mp hP
    subst hPnil
    simp [nextRef]
  | some p =>
    simp only [Option.map_some']
    show idAfter (P ++ R) p.id = _
    exact idAfter_append R P p hP hids

theorem insertBeforeRef_append (e r₀ : RElem) :
    ∀ (P rest : List RElem), (∀ x ∈ P, x.id ≠ r₀.id) →
      insertBeforeRef (P ++ r₀ :: rest) e (some r₀.id) = P ++ e :: r₀ :: rest
  | [], rest, _ => by simp [insertBeforeRef]
  | x :: P', rest, hP => by
    show insertBeforeRef (x :: (P' ++ r₀ :: rest)) e (some r₀.id) = _
    simp only [insertBeforeRef, hP x (by simp), if_false]
    rw [insertBeforeRef_append e r₀ P' rest (fun y hy => hP y (by simp [hy]))]
    rfl

theorem filter_ne_id_perm :
    ∀ (l : List RElem) (e : RElem), e ∈ l → (l.map (fun x => x.id)).Nodup →
      l.Perm (e :: l.filter (fun x => x.id ≠ e.id))
  | [], e, he, _ => by cases he
  | x :: l', e, he, hids => by
    rw [List.map_cons, List.nodup_cons] at hids
    rcases List.mem_cons.mp he with rfl | he'
    · rw [List.filter_cons_of_neg (by simp)]
      have hfl : l'.filter (fun x => x.id ≠ e.id) = l' := by
        rw [List.filter_eq_self]
        intro a ha
        have hne : a.id ≠ e.id := by
          intro hcontra
          exact hids.1 (hcontra ▸ List.mem_map_of_mem _ ha)
        simpa using hne
      rw [hfl]
    · have hxe : x.id ≠ e.id := by
        intro hcontra
        apply hids.1
        rw [hcontra]
        exact List.mem_map_of_mem _ he'
      rw [List.filter_cons_of_pos (by simpa using hxe)]
      exact ((filter_ne_id_perm l' e he' hids.2).cons x).trans (List.Perm.swap e x _)

theorem insertBefore_fresh (P R : List RElem) (f : RElem)
    (hnotin : ∀ x ∈ P ++ R, x.id ≠ f.id)
    (hids : ((P ++ R).map (fun e => e.id)).Nodup) :
    insertBefore (P ++ R) f (R.head?.map (fun e => e.id)) = (P ++ [f]) ++ R := by
  unfold insertBefore
  rw [List.filter_eq_self.mpr (fun a ha => by simpa using hnotin a ha)]
  cases R with
  | nil => simp [insertBeforeRef]
  | cons r₀ R₁ =>
    show insertBeforeRef (P ++ r₀ :: R₁) f (some r₀.id) = _
    rw [insertBeforeRef_append f r₀ P R₁
      (fun x hx => append_ids_disjoint hids x hx r₀ (by simp))]
    simp

theorem filter_key_self :
    ∀ (l : List RElem), (l.map (fun e => e.key)).Nodup →
      ∀ e ∈ l, l.filter (fun x => x.key = e.key) = [e]
  | [], _, e, he => by cases he
  | c :: cs, hkeys, e, he => by
    rw [List.map_cons, List.nodup_cons] at hkeys
    rcases List.mem_cons.mp he with rfl | he'
    · rw [List.filter_cons_of_pos (by simp)]
      have : cs.filter (fun x => x.key = e.key) = [] := by
        rw [List.filter_eq_nil_iff]
        intro a ha
        simp only [decide_eq_true_eq]
        intro hcontra
        exact hkeys.1 (hcontra ▸ List.mem_map_of_mem _ ha)
      rw [this]
    · have hck : c.key ≠ e.key := by
        intro hcontra
        exact hkeys.1 (hcontra ▸ List.mem_map_of_mem _ he')
      rw [List.filter_cons_of_neg (by simpa using hck)]
      exact filter_key_self cs hkeys.2 e he'

/-- The invariant-carrying specification of the phase-3 walk: starting from a
container `P ++ R` whose placed prefix `P` is live and whose residue `R`
holds the elements still available for reuse (`hub`) or already exiting
(`hcover`), the walk produces a container `Pf ++ Rf` whose prefix is keyed
exactly by the remaining items in order and whose residue is the exiting
subset of `R`. -/
theorem placeItems_spec {α : Type} (getKey : α → String) (lookup : String → Option RElem)
    (hlk : ∀ k e, lookup k = some e → e.key = k ∧ e.exiting = false) :
    ∀ (rest : List α) (P R : List RElem) (nid : Nat),
      (rest.map getKey).Nodup →
      (∀ item ∈ rest, ∀ e, lookup (getKey item) = some e → e ∈ R) →
      (∀ x ∈ R, x.exiting = true ∨ ∃ item ∈ rest, lookup (getKey item) = some x) →
      ((P ++ R).map (fun e => e.id)).Nodup →
      (∀ e ∈ P ++ R, e.id < nid) →
      (∀ e ∈ P, e.exiting = false) →
      ∃ Pf Rf nidf,
        placeItems getKey lookup rest (P ++ R) (P.getLast?.map (fun e => e.id)) nid =
          (Pf ++ Rf, nidf) ∧
        Pf.map (fun e => e.key) = P.map (fun e => e.key) ++ rest.map getKey ∧
        (∀ e ∈ Pf, e.exiting = false) ∧
        (∀ x ∈ Rf, x.exiting = true ∧ x ∈ R) ∧
        (∀ x ∈ R, x.exiting = true → x ∈ Rf) ∧
        ((Pf ++ Rf).map (fun e => e.id)).Nodup ∧
        nid ≤ nidf ∧
        (∀ e ∈ Pf ++ Rf, e.id < nidf) := by
  intro rest
  induction rest with
  | nil =>
    intro P R nid hkeys hub hcover hids hbound hPlive
    refine ⟨P, R, nid, rfl, by simp, hPlive, ?_, fun x hx _ => hx, hids, Nat.le_refl _, hbound⟩
    intro x hx
    rcases hcover x hx with h | h
    · exact ⟨h, hx⟩
    · obtain ⟨item, hitem, _⟩ := h
      simp at hitem
  | cons item rest' ih =>
    intro P R nid hkeys hub hcover hids hbound hPlive
    rw [List.map_cons, List.nodup_cons] at hkeys
    cases hl : lookup (getKey item) with
    | some e =>
      obtain ⟨heKey, heLive⟩ := hlk (getKey item) e hl
      have heR : e ∈ R := hub item (by simp) e hl
      obtain ⟨r₀, R₁, rfl⟩ : ∃ r₀ R₁, R = r₀ :: R₁ := by
        cases R with
        | nil => cases heR
        | cons a b => exact ⟨a, b, rfl⟩
      have href : nextRef (P ++ r₀ :: R₁) (P.getLast?.map (fun x => x.id)) =
          some r₀.id := by
        rw [nextRef_append P (r₀ :: R₁) hids]
        rfl
      have hRight : ((r₀ :: R₁).map (fun z => z.id)).Nodup := by
        have h0 := hids
        rw [List.map_append, List.nodup_append] at h0
        exact h0.2.1
      simp only [placeItems, hl, href]
      by_cases hre : r₀.id = e.id
      · have hr₀e : r₀ = e := mem_id_eq hids (by simp) (List.mem_append_right _ heR) hre
        subst hr₀e
        rw [if_pos rfl]
        have hassoc : P ++ r₀ :: R₁ = (P ++ [r₀]) ++ R₁ := by simp
        have hprev : (some r₀.id : Option Nat) =
            ((P ++ [r₀]).getLast?.map (fun x => x.id)) := by
          rw [List.getLast?_concat]
          rfl
        rw [hassoc, hprev]
        have hub' : ∀ item' ∈ rest', ∀ e', lookup (getKey item') = some e' → e' ∈ R₁ := by
          intro item' hitem' e' hl'
          have he'R : e' ∈ r₀ :: R₁ := hub item' (by simp [hitem']) e' hl'
          have hne : getKey item' ≠ getKey item := by
            intro hcontra
            exact hkeys.1 (hcontra ▸ List.mem_map_of_mem _ hitem')
          rcases List.mem_cons.mp he'R with rfl | h
          · exact absurd (by rw [← (hlk _ _ hl').1, heKey]) hne
          · exact h
        have hcover' : ∀ x ∈ R₁, x.exiting = true ∨
            ∃ item' ∈ rest', lookup (getKey item') = some x := by
          intro x hx
          rcases hcover x (by simp [hx]) with h | h
          · exact Or.inl h
          · obtain ⟨item₀, hitem₀, hlx⟩ := h
            rcases List.mem_cons.mp hitem₀ with rfl | hitem₀'
            · exfalso
              rw [hl] at hlx
              have hxe : r₀ = x := by injection hlx
              have hnotin : r₀.id ∉ R₁.map (fun z => z.id) :=
                (List.nodup_cons.mp hRight).1
              exact hnotin (hxe ▸ List.mem_map_of_mem _ hx)
            · exact Or.inr ⟨item₀, hitem₀', hlx⟩
        have hids' : (((P ++ [r₀]) ++ R₁).map (fun x => x.id)).Nodup := by
          rw [← hassoc]
          exact hids
        have hbound' : ∀ x ∈ (P ++ [r₀]) ++ R₁, x.id < nid := by
          intro x hx
          rw [← hassoc] at hx
          exact hbound x hx
        have hPlive' : ∀ x ∈ P ++ [r₀], x.exiting = false := by
          intro x hx
          rcases List.mem_append.mp hx with h | h
          · exact hPlive x h
          · simp at h
            rw [h]
            exact heLive
        obtain ⟨Pf, Rf, nidf, heq, hkeysf, hlivef, hRff, hconvf, hidsf, hlef, hboundf⟩ :=
          ih (P ++ [r₀]) R₁ nid hkeys.2 hub' hcover' hids' hbound' hPlive'
        refine ⟨Pf, Rf, nidf, heq, ?_, hlivef, ?_, ?_, hidsf, hlef, hboundf⟩
        · rw [hkeysf]
          simp [heKey]
        · intro x hx
          obtain ⟨hex, hxR⟩ := hRff x hx
          exact ⟨hex, by simp [hxR]⟩
        · intro x hx hexit
          rcases List.mem_cons.mp hx with rfl | hx'
          · rw [heLive] at hexit
            cases hexit
          · exact hconvf x hx' hexit
      · rw [if_neg (by simpa using hre)]
        have hene : e ≠ r₀ := fun hcontra => hre (by rw [hcontra])
        have heR₁ : e ∈ R₁ := by
          rcases List.mem_cons.mp heR with h | h
          · exact absurd h.symm hene.symm
          · exact h
        have hR₁ids : (R₁.map (fun x => x.id)).Nodup := (List.nodup_cons.mp hRight).2
        have hcontainer : insertBefore (P ++ r₀ :: R₁) e (some r₀.id) =
            (P ++ [e]) ++ (r₀ :: R₁.filter (fun x => x.id ≠ e.id)) := by
          unfold insertBefore
          have hPf : P.filter (fun x => x.id ≠ e.id) = P := by
            rw [List.filter_eq_self]
            intro a ha
            simpa using append_ids_disjoint hids a ha e heR
          rw [List.filter_append, hPf, List.filter_cons_of_pos (by simpa using hre)]
          rw [insertBeforeRef_append e r₀ P _
            (fun x hx => append_ids_disjoint hids x hx r₀ (by simp))]
          simp
        rw [hcontainer]
        have hperm : ((P ++ [e]) ++ (r₀ :: R₁.filter (fun x => x.id ≠ e.id))).Perm
            (P ++ r₀ :: R₁) := by
          have h1 : (P ++ [e]) ++ (r₀ :: R₁.filter (fun x => x.id ≠ e.id)) =
              P ++ (e :: r₀ :: R₁.filter (fun x => x.id ≠ e.id)) := by simp
          rw [h1]
          refine List.Perm.append_left P ?_
          have h2 : R₁.Perm (e :: R₁.filter (fun x => x.id ≠ e.id)) :=
            filter_ne_id_perm R₁ e heR₁ hR₁ids
          exact (List.Perm.swap r₀ e _).trans ((h2.cons r₀).symm)
        have hprev : (some e.id : Option Nat) =
            ((P ++ [e]).getLast?.map (fun x => x.id)) := by
          rw [List.getLast?_concat]
          rfl
        rw [hprev]
        have hids' : (((P ++ [e]) ++ (r₀ :: R₁.filter (fun x => x.id ≠ e.id))).map
            (fun x => x.id)).Nodup := ((hperm.map _).nodup_iff).mpr hids
        have hbound' : ∀ x ∈ (P ++ [e]) ++ (r₀ :: R₁.filter (fun x => x.id ≠ e.id)),
            x.id < nid := fun x hx => hbound x (hperm.mem_iff.mp hx)
        have hub' : ∀ item' ∈ rest', ∀ e', lookup (getKey item') = some e' →
            e' ∈ r₀ :: R₁.filter (fun x => x.id ≠ e.id) := by
          intro item' hitem' e' hl'
          have he'R : e' ∈ r₀ :: R₁ := hub item' (by simp [hitem']) e' hl'
          have hne : e' ≠ e := by
            intro hcontra
            have h1 : e'.key = getKey item' := (hlk _ _ hl').1
            have h2 : getKey item' = getKey item := by rw [← h1, hcontra, heKey]
            exact hkeys.1 (h2 ▸ List.mem_map_of_mem _ hitem')
          rcases List.mem_cons.mp he'R with rfl | h
          · simp
          · have hne' : e'.id ≠ e.id := by
              intro hcontra
              exact hne (mem_id_eq hids (List.mem_append_right _ (by simp [h]))
                (List.mem_append_right _ (by simp [heR₁])) hcontra)
            exact List.mem_cons_of_mem _ (List.mem_filter.mpr ⟨h, by simpa using hne'⟩)
        have hcover' : ∀ x ∈ r₀ :: R₁.filter (fun x => x.id ≠ e.id), x.exiting = true ∨
            ∃ item' ∈ rest', lookup (getKey item') = some x := by
          intro x hx
          have hxR : x ∈ r₀ :: R₁ := by
            rcases List.mem_cons.mp hx with rfl | h
            · simp
            · exact List.mem_cons_of_mem _ (List.mem_filter.mp h).1
          rcases hcover x hxR with h | h
          · exact Or.inl h
          · obtain ⟨item₀, hitem₀, hlx⟩ := h
            rcases List.mem_cons.mp hitem₀ with rfl | hitem₀'
            · exfalso
              rw [hl] at hlx
              have hxe : e = x := by injection hlx
              subst hxe
              rcases List.mem_cons.mp hx with heq | h'
              · exact hene heq
              · have := (List.mem_filter.mp h').2
                simp at this
            · exact Or.inr ⟨item₀, hitem₀', hlx⟩
        have hPlive' : ∀ x ∈ P ++ [e], x.exiting = false := by
          intro x hx
          rcases List.mem_append.mp hx with h | h
          · exact hPlive x h
          · simp at h
            rw [h]
            exact heLive
        obtain ⟨Pf, Rf, nidf, heq, hkeysf, hlivef, hRff, hconvf, hidsf, hlef, hboundf⟩ :=
          ih (P ++ [e]) (r₀ :: R₁.filter (fun x => x.id ≠ e.id)) nid hkeys.2
            hub' hcover' hids' hbound' hPlive'
        refine ⟨Pf, Rf, nidf, heq, ?_, hlivef, ?_, ?_, hidsf, hlef, hboundf⟩
        · rw [hkeysf]
          simp [heKey]
        · intro x hx
          obtain ⟨hex, hxR'⟩ := hRff x hx
          refine ⟨hex, ?_⟩
          rcases List.mem_cons.mp hxR' with rfl | h
          · simp
          · exact List.mem_cons_of_mem _ (List.mem_filter.mp h).1
        · intro x hx hexit
          rcases List.mem_cons.mp hx with rfl | hx'
          · exact hconvf x (by simp) hexit
          · have hxe : x ≠ e := by
              intro hcontra
              rw [hcontra, heLive] at hexit
              cases hexit
            have hxid : x.id ≠ e.id := by
              intro hcontra
              exact hxe (mem_id_eq hids (List.mem_append_right _ (by simp [hx']))
                (List.mem_append_right _ (by simp [heR₁])) hcontra)
            exact hconvf x (List.mem_cons_of_mem _
              (List.mem_filter.mpr ⟨hx', by simpa using hxid⟩)) hexit
    | none =>
      have hfresh : ∀ x ∈ P ++ R, x.id ≠ nid := fun x hx => Nat.ne_of_lt (hbound x hx)
      have href : nextRef (P ++ R) (P.getLast?.map (fun x => x.id)) =
          R.head?.map (fun x => x.id) := nextRef_append P R hids
      simp only [placeItems, hl, href]
      rw [insertBefore_fresh P R ⟨nid, getKey item, false⟩ hfresh hids]
      have hprev : (some nid : Option Nat) =
          ((P ++ [(⟨nid, getKey item, false⟩ : RElem)]).getLast?.map (fun x => x.id)) := by
        rw [List.getLast?_concat]
        rfl
      rw [hprev]
      have hpm : ((P ++ [(⟨nid, getKey item, false⟩ : RElem)]) ++ R).Perm
          ((⟨nid, getKey item, false⟩ : RElem) :: (P ++ R)) := by
        have h1 : (P ++ [(⟨nid, getKey item, false⟩ : RElem)]) ++ R =
            P ++ (⟨nid, getKey item, false⟩ : RElem) :: R := by simp
        rw [h1]
        exact List.perm_middle
      have hids' : (((P ++ [(⟨nid, getKey item, false⟩ : RElem)]) ++ R).map
          (fun x => x.id)).Nodup := by
        refine ((hpm.map _).nodup_iff).mpr ?_
        rw [List.map_cons, List.nodup_cons]
        refine ⟨?_, hids⟩
        intro hcontra
        obtain ⟨x, hx, hxid⟩ := List.mem_map.mp hcontra
        exact hfresh x hx hxid
      have hbound' : ∀ x ∈ (P ++ [(⟨nid, getKey item, false⟩ : RElem)]) ++ R,
          x.id < nid + 1 := by
        intro x hx
        rcases List.mem_cons.mp (hpm.mem_iff.mp hx) with rfl | h
        · exact Nat.lt_succ_self nid
        · exact Nat.lt_succ_of_lt (hbound x h)
      have hub' : ∀ item' ∈ rest', ∀ e', lookup (getKey item') = some e' → e' ∈ R :=
        fun item' hitem' e' hl' => hub item' (by simp [hitem']) e' hl'
      have hcover' : ∀ x ∈ R, x.exiting = true ∨
          ∃ item' ∈ rest', lookup (getKey item') = some x := by
        intro x hx
        rcases hcover x hx with h | h
        · exact Or.inl h
        · obtain ⟨item₀, hitem₀, hlx⟩ := h
          rcases List.mem_cons.mp hitem₀ with rfl | hitem₀'
          · rw [hl] at hlx
            cases hlx
          · exact Or.inr ⟨item₀, hitem₀', hlx⟩
      have hPlive' : ∀ x ∈ P ++ [(⟨nid, getKey item, false⟩ : RElem)],
          x.exiting = false := by
        intro x hx
        rcases List.mem_append.mp hx with h | h
        · exact hPlive x h
        · simp at h
          rw [h]
      obtain ⟨Pf, Rf, nidf, heq, hkeysf, hlivef, hRff, hconvf, hidsf, hlef, hboundf⟩ :=
        ih (P ++ [(⟨nid, getKey item, false⟩ : RElem)]) R (nid + 1) hkeys.2
          hub' hcover' hids' hbound' hPlive'
      refine ⟨Pf, Rf, nidf, heq, ?_, hlivef, hRff, hconvf, hidsf,
        Nat.le_of_succ_le hlef, hboundf⟩
      rw [hkeysf]
      simp

theorem staleInMap_iff (children : List RElem) (newKeys : List String)
    (hkeys : (children.map (fun e => e.key)).Nodup)
    (hne : ∀ e ∈ children, e.key ≠ "") {e : RElem} (he : e ∈ children) :
    staleInMap children newKeys e ↔ e.key ∉ newKeys := by
  unfold staleInMap
  constructor
  · rintro ⟨_, h2, _⟩
    exact h2
  · intro h
    exact ⟨hne e he, h, by rw [filter_key_self children hkeys e he]; rfl⟩

theorem markExit_eq (children : List RElem) (newKeys : List String)
    (hkeys : (children.map (fun e => e.key)).Nodup)
    (hne : ∀ e ∈ children, e.key ≠ "") :
    markExit children newKeys = children.map (fun e =>
      if e.key ∈ newKeys then e else { e with exiting := true }) := by
  unfold markExit
  refine List.map_congr_left ?_
  intro e he
  by_cases h : e.key ∈ newKeys
  · rw [if_neg (by rw [staleInMap_iff children newKeys hkeys hne he]; simpa using h),
      if_pos h]
  · rw [if_pos ((staleInMap_iff children newKeys hkeys hne he).mpr h), if_neg h]

theorem markExit_ids (children : List RElem) (newKeys : List String) :
    (markExit children newKeys).map (fun e => e.id) = children.map (fun e => e.id) := by
  unfold markExit
  rw [List.map_map]
  refine List.map_congr_left ?_
  intro a _
  show (if staleInMap children newKeys a then { a with exiting := true } else a).id = a.id
  split <;> rfl

theorem markExit_keys (children : List RElem) (newKeys : List String) :
    (markExit children newKeys).map (fun e => e.key) = children.map (fun e => e.key) := by
  unfold markExit
  rw [List.map_map]
  refine List.map_congr_left ?_
  intro a _
  show (if staleInMap children newKeys a then { a with exiting := true } else a).key = a.key
  split <;> rfl

theorem exitTimers_eq (children : List RElem) (newKeys : List String)
    (hkeys : (children.map (fun e => e.key)).Nodup)
    (hne : ∀ e ∈ children, e.key ≠ "") :
    exitTimers children newKeys =
      (children.filter (fun e => e.key ∉ newKeys)).map (fun e => e.id) := by
  unfold exitTimers
  congr 1
  refine List.filter_congr ?_
  intro e he
  exact decide_eq_decide.mpr (staleInMap_iff children newKeys hkeys hne he)

theorem keyLookup_spec (children : List RElem) (newKeys : List String) :
    ∀ k e, keyLookup children newKeys k = some e →
      e ∈ children ∧ e.key = k ∧ k ∈ newKeys := by
  intro k e h
  unfold keyLookup at h
  by_cases hc : k = "" ∨ k ∉ newKeys
  · rw [if_pos hc] at h
    cases h
  · rw [if_neg hc] at h
    push_neg at hc
    have hmem := List.mem_of_mem_getLast? h
    have := List.mem_filter.mp hmem
    exact ⟨this.1, by simpa using this.2, hc.2⟩

theorem liveKeys_split (P E : List RElem) (hP : ∀ e ∈ P, e.exiting = false)
    (hE : ∀ e ∈ E, e.exiting = true) : liveKeys (P ++ E) = P.map (fun e => e.key) := by
  unfold liveKeys
  rw [List.filter_append, List.filter_eq_self.mpr (fun a ha => by simp [hP a ha]),
    List.filter_eq_nil_iff.mpr (fun a ha => by simp [hE a ha]), List.append_nil]

/-- One reconciliation pass over a clean container (all children live, keys
and identities distinct, keys non-empty): the resulting children split into a
live prefix keyed exactly by the new items in order, followed by the stale
elements now marked exiting; the pass appends one removal callback per stale
element. -/
theorem diffList_spec {α : Type} (getKey : α → String) (st : RState) (items : List α)
    (hids : (st.children.map (fun e => e.id)).Nodup)
    (hkeys : (st.children.map (fun e => e.key)).Nodup)
    (hlive : ∀ e ∈ st.children, e.exiting = false)
    (hne : ∀ e ∈ st.children, e.key ≠ "")
    (hbound : ∀ e ∈ st.children, e.id < st.nextId)
    (hnew : (items.map getKey).Nodup) :
    ∃ Pf Rf,
      (diffList st items getKey).children = Pf ++ Rf ∧
      Pf.map (fun e => e.key) = items.map getKey ∧
      (∀ e ∈ Pf, e.exiting = false) ∧
      (∀ x ∈ Rf, ∃ y ∈ st.children, x = { y with exiting := true } ∧
        y.key ∉ items.map getKey) ∧
      (∀ y ∈ st.children, y.key ∉ items.map getKey →
        ({ y with exiting := true } : RElem) ∈ Rf) ∧
      ((Pf ++ Rf).map (fun e => e.id)).Nodup ∧
      st.nextId ≤ (diffList st items getKey).nextId ∧
      (∀ e ∈ Pf ++ Rf, e.id < (diffList st items getKey).nextId) ∧
      (diffList st items getKey).timers = st.timers ++
        (st.children.filter (fun e => e.key ∉ items.map getKey)).map (fun e => e.id) := by
  have hmkeq := markExit_eq st.children (items.map getKey) hkeys hne
  have hmkeys := markExit_keys st.children (items.map getKey)
  have hmids := markExit_ids st.children (items.map getKey)
  have hmem_marked : ∀ x ∈ markExit st.children (items.map getKey),
      ∃ c ∈ st.children, (c.key ∈ items.map getKey ∧ x = c) ∨
        (c.key ∉ items.map getKey ∧ x = { c with exiting := true }) := by
    intro x hx
    rw [hmkeq] at hx
    obtain ⟨c, hc, hxc⟩ := List.mem_map.mp hx
    by_cases h : c.key ∈ items.map getKey
    · exact ⟨c, hc, Or.inl ⟨h, by rw [← hxc, if_pos h]⟩⟩
    · exact ⟨c, hc, Or.inr ⟨h, by rw [← hxc, if_neg h]⟩⟩
  have hlk : ∀ k e, keyLookup (markExit st.children (items.map getKey)) (items.map getKey)
      k = some e → e.key = k ∧ e.exiting = false := by
    intro k e h
    obtain ⟨hmem, hkey, hkin⟩ := keyLookup_spec _ _ k e h
    refine ⟨hkey, ?_⟩
    obtain ⟨c, hc, hcase⟩ := hmem_marked e hmem
    rcases hcase with ⟨_, hec⟩ | ⟨hout, hec⟩
    · rw [hec]
      exact hlive c hc
    · exfalso
      apply hout
      rw [← hkey, hec] at hkin
      simpa using hkin
  have hub : ∀ item ∈ items, ∀ e,
      keyLookup (markExit st.children (items.map getKey)) (items.map getKey)
        (getKey item) = some e → e ∈ markExit st.children (items.map getKey) :=
    fun item _ e h => (keyLookup_spec _ _ _ e h).1
  have hmarked_keys_nodup : ((markExit st.children (items.map getKey)).map
      (fun e => e.key)).Nodup := by
    rw [hmkeys]
    exact hkeys
  have hcover : ∀ x ∈ markExit st.children (items.map getKey), x.exiting = true ∨
      ∃ item ∈ items, keyLookup (markExit st.children (items.map getKey))
        (items.map getKey) (getKey item) = some x := by
    intro x hx
    obtain ⟨c, hc, hcase⟩ := hmem_marked x hx
    rcases hcase with ⟨hin, hec⟩ | ⟨_, hec⟩
    · right
      rw [hec] at hx ⊢
      obtain ⟨item, hitem, hitemkey⟩ := List.mem_map.mp hin
      refine ⟨item, hitem, ?_⟩
      unfold keyLookup
      rw [if_neg (by
        push_neg
        exact ⟨by rw [hitemkey]; exact hne c hc, by rw [hitemkey]; exact hin⟩)]
      rw [hitemkey, filter_key_self _ hmarked_keys_nodup c hx]
      rfl
    · left
      rw [hec]
  have hmids_nodup : ((([] : List RElem) ++ markExit st.children
      (items.map getKey)).map (fun e => e.id)).Nodup := by
    rw [List.nil_append, hmids]
    exact hids
  have hmbound : ∀ e ∈ ([] : List RElem) ++ markExit st.children (items.map getKey),
      e.id < st.nextId := by
    intro x hx
    rw [List.nil_append] at hx
    obtain ⟨c, hc, hcase⟩ := hmem_marked x hx
    rcases hcase with ⟨_, hec⟩ | ⟨_, hec⟩
    · rw [hec]
      exact hbound c hc
    · rw [hec]
      exact hbound c hc
  obtain ⟨Pf, Rf, nidf, heq, hkeysf, hlivef, hRff, hconvf, hidsf, hlef, hboundf⟩ :=
    placeItems_spec getKey _ hlk items []
      (markExit st.children (items.map getKey)) st.nextId hnew hub hcover
      hmids_nodup hmbound (by simp)
  simp only [List.getLast?_nil, Option.map_none', List.nil_append] at heq
  have hchildren : (diffList st items getKey).children = Pf ++ Rf := by
    simp only [diffList]
    rw [heq]
  have hnid : (diffList st items getKey).nextId = nidf := by
    simp only [diffList]
    rw [heq]
  refine ⟨Pf, Rf, hchildren, by simpa using hkeysf, hlivef, ?_, ?_, hidsf, ?_, ?_, ?_⟩
  · intro x hx
    obtain ⟨hex, hxm⟩ := hRff x hx
    obtain ⟨c, hc, hcase⟩ := hmem_marked x hxm
    rcases hcase with ⟨_, hec⟩ | ⟨hout, hec⟩
    · rw [hec, hlive c hc] at hex
      cases hex
    · exact ⟨c, hc, hec, hout⟩
  · intro y hy hout
    refine hconvf _ ?_ rfl
    rw [hmkeq]
    refine List.mem_map.mpr ⟨y, hy, ?_⟩
    rw [if_neg hout]
  · rw [hnid]
    exact hlef
  · rw [hnid]
    exact hboundf
  · simp only [diffList]
    rw [exitTimers_eq st.children (items.map getKey) hkeys hne]

/-! ### C1: the reconciliation guarantee -/

/-- C1: for every old and new keyed item list (keys unique and non-empty),
after rendering the old list into an empty container and then reconciling to
the new list, the container's live (non-exiting) children are keyed exactly
by the new items' keys, in the new items' order. -/
theorem diffList_reconcile {α : Type} (getKey : α → String) (oldItems newItems : List α)
    (hold : (oldItems.map getKey).Nodup) (hnew : (newItems.map getKey).Nodup)
    (hold' : "" ∉ oldItems.map getKey) (hnew' : "" ∉ newItems.map getKey) :
    liveKeys (diffList (diffList emptyRState oldItems getKey) newItems getKey).children =
      newItems.map getKey := by
  obtain ⟨P1, R1, hch1, hk1, hl1, hR1, _, hids1, _, hbound1, _⟩ :=
    diffList_spec getKey emptyRState oldItems (by simp [emptyRState]) (by simp [emptyRState])
      (by simp [emptyRState]) (by simp [emptyRState]) (by simp [emptyRState]) hold
  have hR1nil : R1 = [] := by
    cases hR1c : R1 with
    | nil => rfl
    | cons x xs =>
      obtain ⟨y, hy, _⟩ := hR1 x (by simp [hR1c])
      simp [emptyRState] at hy
  rw [hR1nil, List.append_nil] at hch1 hids1 hbound1
  have hP1keys : P1.map (fun e => e.key) = oldItems.map getKey := hk1
  obtain ⟨P2, R2, hch2, hk2, hl2, hR2, _, _, _, _, _⟩ :=
    diffList_spec getKey (diffList emptyRState oldItems getKey) newItems
      (by rw [hch1]; exact hids1)
      (by rw [hch1, hP1keys]; exact hold)
      (by rw [hch1]; exact hl1)
      (by rw [hch1]; intro e he; intro hcontra
          exact hold' (by rw [← hP1keys]; exact hcontra ▸ List.mem_map_of_mem _ he))
      (by rw [hch1]; exact hbound1)
      hnew
  rw [hch2]
  rw [liveKeys_split P2 R2 hl2 ?_]
  · exact hk2
  · intro x hx
    obtain ⟨y, _, rfl, _⟩ := hR2 x hx
    rfl

/-- Witness for C1 at concrete old and new lists. -/
theorem diffList_reconcile_witness :
    liveKeys (diffList (diffList emptyRState ["A", "B"] (fun s => s)) ["B", "C"]
      (fun s => s)).children = (["B", "C"] : List String).map (fun s => s) :=
  diffList_reconcile (fun s => s) ["A", "B"] ["B", "C"]
    (by decide) (by decide) (by decide) (by decide)

/-! ### C9: deferred removal callbacks -/

/-- The state after rendering `[A, B]`, reconciling to `[A]` (which schedules
an exit callback for the `B` element), and reconciling back to `[A, B]`
before that callback fires. -/
def resurrectState : RState :=
  diffList (diffList (diffList emptyRState ["A", "B"] (fun s => s)) ["A"] (fun s => s))
    ["A", "B"] (fun s => s)

/-- Counterexample to C9 as stated: after the third pass the newest item list
`[A, B]` keeps key `B` and the container still holds its element (the second
pass's exiting element, reused), yet the second pass's pending callback is
still scheduled and firing it detaches that element: the container is left
without any `B` child even though the newest pass kept `B`. -/
theorem animateOut_callback_counterexample :
    resurrectState.timers = [1] ∧
    resurrectState.children.map (fun e => e.key) = ["A", "B"] ∧
    (fireTimer resurrectState 1).children.map (fun e => e.key) = ["A"] := by
  decide

/-- C9 amended: the deferred removal callback's guard checks only that its
element is still attached (`element.parentNode === container`), not that it
is still stale.  For a callback scheduled by the latest pass over a clean
container this suffices: the stale element is still attached and marked
exiting after the pass, firing the callback removes it while the live
children stay exactly the new keys, and a callback whose element is already
detached is a no-op. -/
theorem animateOut_callback_amended {α : Type} (getKey : α → String)
    (oldItems newItems : List α)
    (hold : (oldItems.map getKey).Nodup) (hnew : (newItems.map getKey).Nodup)
    (hold' : "" ∉ oldItems.map getKey) (hnew' : "" ∉ newItems.map getKey)
    (t : Nat)
    (ht : t ∈ (diffList (diffList emptyRState oldItems getKey) newItems getKey).timers) :
    t ∈ (diffList (diffList emptyRState oldItems getKey) newItems
      getKey).children.map (fun e => e.id) ∧
    (∀ e ∈ (diffList (diffList emptyRState oldItems getKey) newItems getKey).children,
      e.id = t → e.exiting = true) ∧
    liveKeys ((fireTimer (diffList (diffList emptyRState oldItems getKey) newItems getKey)
      t).children) = newItems.map getKey ∧
    (∀ s : RState, t ∉ s.children.map (fun e => e.id) →
      (fireTimer s t).children = s.children) := by
  obtain ⟨P1, R1, hch1, hk1, hl1, hR1, _, hids1, _, hbound1, htm1⟩ :=
    diffList_spec getKey emptyRState oldItems (by simp [emptyRState]) (by simp [emptyRState])
      (by simp [emptyRState]) (by simp [emptyRState]) (by simp [emptyRState]) hold
  have hR1nil : R1 = [] := by
    cases hR1c : R1 with
    | nil => rfl
    | cons x xs =>
      obtain ⟨y, hy, _⟩ := hR1 x (by simp [hR1c])
      simp [emptyRState] at hy
  rw [hR1nil, List.append_nil] at hch1 hids1 hbound1
  have htm1' : (diffList emptyRState oldItems getKey).timers = [] := by
    rw [htm1]
    simp [emptyRState]
  obtain ⟨P2, R2, hch2, hk2, hl2, hR2, hconv2, hids2, _, _, htm2⟩ :=
    diffList_spec getKey (diffList emptyRState oldItems getKey) newItems
      (by rw [hch1]; exact hids1)
      (by rw [hch1, hk1]; exact hold)
      (by rw [hch1]; exact hl1)
      (by rw [hch1]; intro e he; intro hcontra
          exact hold' (by rw [← hk1]; exact hcontra ▸ List.mem_map_of_mem _ he))
      (by rw [hch1]; exact hbound1)
      hnew
  rw [htm2, htm1', List.nil_append] at ht
  obtain ⟨x, hxf, hxid⟩ := List.mem_map.mp ht
  have hx1 : x ∈ (diffList emptyRState oldItems getKey).children :=
    (List.mem_filter.mp hxf).1
  have hxout : x.key ∉ newItems.map getKey := by
    have := (List.mem_filter.mp hxf).2
    simpa using this
  have hxe : ({ x with exiting := true } : RElem) ∈ R2 := hconv2 x hx1 hxout
  have hxe_mem : ({ x with exiting := true } : RElem) ∈ P2 ++ R2 :=
    List.mem_append_right _ hxe
  refine ⟨?_, ?_, ?_, ?_⟩
  · rw [hch2, ← hxid]
    exact List.mem_map.mpr ⟨{ x with exiting := true }, hxe_mem, rfl⟩
  · intro e he hid
    rw [hch2] at he
    have : e = { x with exiting := true } :=
      mem_id_eq hids2 he hxe_mem (by rw [hid, ← hxid])
    rw [this]
  · have hfire : (fireTimer (diffList (diffList emptyRState oldItems getKey) newItems
        getKey) t).children = P2 ++ R2.filter (fun e => e.id ≠ t) := by
      show (diffList (diffList emptyRState oldItems getKey) newItems
        getKey).children.filter (fun e => e.id ≠ t) = _
      rw [hch2, List.filter_append]
      congr 1
      rw [List.filter_eq_self]
      intro a ha
      have : a.id ≠ t := by
        intro hcontra
        have : a = { x with exiting := true } :=
          mem_id_eq hids2 (List.mem_append_left _ ha) hxe_mem (by rw [hcontra, ← hxid])
        have hexit : a.exiting = true := by rw [this]
        rw [hl2 a ha] at hexit
        cases hexit
      simpa using this
    rw [hfire]
    rw [liveKeys_split P2 _ hl2 ?_]
    · exact hk2
    · intro e he
      obtain ⟨y, _, rfl, _⟩ := hR2 e (List.mem_filter.mp he).1
      rfl
  · intro s hs
    show s.children.filter (fun e => e.id ≠ t) = s.children
    rw [List.filter_eq_self]
    intro a ha
    have : a.id ≠ t := fun hcontra => hs (hcontra ▸ List.mem_map_of_mem _ ha)
    simpa using this

/-- Witness for C9 amended: old `[A, B]`, new `[A]`, the scheduled callback
for the `B` element. -/
theorem animateOut_callback_amended_witness :
    1 ∈ (diffList (diffList emptyRState ["A", "B"] (fun s => s)) ["A"]
      (fun s => s)).children.map (fun e => e.id) ∧
    (∀ e ∈ (diffList (diffList emptyRState ["A", "B"] (fun s => s)) ["A"]
        (fun s => s)).children, e.id = 1 → e.exiting = true) ∧
    liveKeys ((fireTimer (diffList (diffList emptyRState ["A", "B"] (fun s => s)) ["A"]
      (fun s => s)) 1).children) = (["A"] : List String).map (fun s => s) ∧
    (∀ s : RState, 1 ∉ s.children.map (fun e => e.id) →
      (fireTimer s 1).children = s.children) :=
  animateOut_callback_amended (fun s => s) ["A", "B"] ["A"]
    (by decide) (by decide) (by decide) (by decide) 1 (by decide)

end GitSpice
